import Mathlib

/-!
Verification of `cc/resources/picture_layer_tiling.cc` (the tile-grid
manager of a picture layer) against its natural-language specification.

The development shallowly embeds the source into Lean:
* `gfx::Rect` becomes `CC.GfxRect` (integer coordinates; the `gfx::Size`
  fields clamp negative extents to zero exactly as the C++ type does);
* `float` scale factors become exact rationals, and the float `sqrt` used
  by `ComputeExpansionDelta` becomes the integer square root;
* C++ integer division (which truncates toward zero) becomes `Int.tdiv`;
* the external collaborator (`PictureLayerTilingClient`) is passed in as
  explicit oracle functions, and `Tile` / `TileBundle` objects are
  identified by natural-number ids;
* `TilingData` (declared in `cc/base/tiling_data.h`, not part of the shown
  sources) is modelled from the spec, see the doc comments marked
  `Modelled from the spec:`.
-/

namespace CC

/-- `gfx::Rect`: integer origin plus extent.  All rectangles built by the
embedded code go through `mkRect`, which clamps negative extents to zero
the way the `gfx::Size` constructor does. -/
structure GfxRect where
  x : Int
  y : Int
  w : Int
  h : Int
deriving DecidableEq, Repr

/-- Build a `gfx::Rect`, clamping negative width/height to zero as
`gfx::Size` does. -/
def mkRect (x y w h : Int) : GfxRect :=
  ⟨x, y, max w 0, max h 0⟩

/-- `gfx::Rect::right()`. -/
def GfxRect.right (r : GfxRect) : Int := r.x + r.w

/-- `gfx::Rect::bottom()`. -/
def GfxRect.bottom (r : GfxRect) : Int := r.y + r.h

/-- `gfx::Rect::IsEmpty()`: true when the width or height is not positive. -/
def GfxRect.isEmpty (r : GfxRect) : Prop := r.w ≤ 0 ∨ r.h ≤ 0

instance (r : GfxRect) : Decidable r.isEmpty := by
  unfold GfxRect.isEmpty; infer_instance

/-- The set of integer points covered by a rectangle (half-open on the
right and bottom).  Containment claims of the spec are read set-wise. -/
def GfxRect.toSet (r : GfxRect) : Set (Int × Int) :=
  {p | r.x ≤ p.1 ∧ p.1 < r.x + r.w ∧ r.y ≤ p.2 ∧ p.2 < r.y + r.h}

instance (r : GfxRect) (p : Int × Int) : Decidable (p ∈ r.toSet) := by
  unfold GfxRect.toSet; simp only [Set.mem_setOf_eq]; infer_instance

/-- `gfx::IntersectRects` / `gfx::Rect::Intersect`: the intersection, or
the all-zero rectangle when the inputs do not overlap. -/
def intersectRects (a b : GfxRect) : GfxRect :=
  if a.isEmpty ∨ b.isEmpty then ⟨0, 0, 0, 0⟩
  else
    let rx := max a.x b.x
    let ry := max a.y b.y
    let rr := min a.right b.right
    let rb := min a.bottom b.bottom
    if rr ≤ rx ∨ rb ≤ ry then ⟨0, 0, 0, 0⟩ else ⟨rx, ry, rr - rx, rb - ry⟩

/-- `gfx::Rect::Inset(left, top, right, bottom)`; the resulting extents are
clamped to zero by `gfx::Size`. -/
def GfxRect.inset (r : GfxRect) (l t rt b : Int) : GfxRect :=
  ⟨r.x + l, r.y + t, max (r.w - l - rt) 0, max (r.h - t - b) 0⟩

/-- `gfx::Rect::Contains(rect)` (coordinate comparison, as in the source). -/
def GfxRect.containsRect (a b : GfxRect) : Prop :=
  b.x ≥ a.x ∧ b.right ≤ a.right ∧ b.y ≥ a.y ∧ b.bottom ≤ a.bottom

/-- Floor of a rational, written so that it evaluates by kernel reduction
(`Int.floor` on `ℚ` does not). -/
def ratFloor (q : ℚ) : Int := q.num / (q.den : Int)

/-- Ceiling of a rational. -/
def ratCeil (q : ℚ) : Int := -ratFloor (-q)

/-- `gfx::ScaleToEnclosingRect` with equal scales on both axes: scale the
rectangle and take the smallest integer rectangle enclosing the result
(floor the origin, ceil the far corner). -/
def scaleToEnclosingRect (r : GfxRect) (s : ℚ) : GfxRect :=
  let nx := ratFloor ((r.x : ℚ) * s)
  let ny := ratFloor ((r.y : ℚ) * s)
  let nr := ratCeil ((r.right : ℚ) * s)
  let nb := ratCeil ((r.bottom : ℚ) * s)
  mkRect nx ny (nr - nx) (nb - ny)

/-!
### The rectangle-expansion algorithm

Translation of the anonymous-namespace helpers and
`PictureLayerTiling::ExpandRectEquallyToAreaBoundedBy`
(`picture_layer_tiling.cc`, lines 806-953).  The C++ `std::sqrt` on a
non-negative integral discriminant followed by truncation to `int` is
embedded as the integer square root `Int.sqrt`; C++ `/` on `int`/`int64`
is `Int.tdiv`.
-/
/-- `ComputeExpansionDelta`: solve `a d^2 + b d + c = 0` for the expansion
delta, where `a`, `b`, `c` come from the free-edge counts and the current
width/height; the linear solution is used when `a == 0`. -/
def computeExpansionDelta (numXEdges numYEdges w h target : Int) : Int :=
  let a := numYEdges * numXEdges
  let b := numYEdges * w + numXEdges * h
  let c := w * h - target
  if a = 0 then Int.tdiv (-c) b
  else Int.tdiv (-b + Int.sqrt (b * b - 4 * a * c)) (2 * a)

/-- The four edge kinds of the expansion loop's `EdgeEvent`.  `bottom`/`top`
consume `num_y_edges`, `left`/`right` consume `num_x_edges`. -/
inductive EdgeKind where
  | bottom
  | top
  | left
  | right
deriving DecidableEq, Repr

/-- Whether an edge belongs to the x axis (shares `num_x_edges`). -/
def EdgeKind.isX : EdgeKind → Bool
  | .left => true
  | .right => true
  | _ => false

/-- An `EdgeEvent`: an edge together with its (initial) distance to the
corresponding edge of the bounding rectangle. -/
structure EdgeEvent where
  edge : EdgeKind
  distance : Int
deriving DecidableEq, Repr

/-- Mutable loop state of the expansion loop: the current rectangle and
the free-edge counts. -/
structure ExpandState where
  ox : Int
  oy : Int
  w : Int
  h : Int
  numX : Int
  numY : Int
deriving DecidableEq, Repr

/-- Apply the expansion delta to one edge (the `switch` in the source's
inner loop). -/
def applyEdge (d : Int) (st : ExpandState) : EdgeKind → ExpandState
  | .bottom => { st with oy := st.oy - d, h := st.h + d }
  | .top => { st with h := st.h + d }
  | .left => { st with ox := st.ox - d, w := st.w + d }
  | .right => { st with w := st.w + d }

/-- Distance from each edge of the loop state's rectangle to the
corresponding edge of the bounding rectangle (the quantity the source
tracks in `EdgeEvent::distance`). -/
def gapOf (B : GfxRect) (st : ExpandState) : EdgeKind → Int
  | .bottom => st.oy - B.y
  | .top => B.bottom - (st.oy + st.h)
  | .left => st.ox - B.x
  | .right => B.right - (st.ox + st.w)

/-- The inner loop of the source: apply the delta to the edges of all
listed events. -/
def applyAll (d : Int) (l : List EdgeEvent) (st : ExpandState) : ExpandState :=
  l.foldl (fun acc ev => applyEdge d acc ev.edge) st

/-- The source sorts the four events by distance with five compare-swaps
(a sorting network); this is the same network. -/
def sortEvents (a0 b0 c0 d0 : EdgeEvent) : List EdgeEvent :=
  let p1 := if a0.distance > b0.distance then (b0, a0) else (a0, b0)
  let p2 := if c0.distance > d0.distance then (d0, c0) else (c0, d0)
  let p3 := if p1.1.distance > p2.1.distance then (p2.1, p1.1) else (p1.1, p2.1)
  let p4 := if p1.2.distance > p2.2.distance then (p2.2, p1.2) else (p1.2, p2.2)
  let p5 := if p4.1.distance > p3.2.distance then (p3.2, p4.1) else (p4.1, p3.2)
  [p3.1, p5.1, p5.2, p4.2]

/-- The event loop of `ExpandRectEquallyToAreaBoundedBy`.  The source
decrements the stored `distance` of every remaining event by each applied
delta; here the running total of applied deltas is carried in `acc`
instead, so the effective distance of event `e` is `e.distance - acc`.
The loop body follows the source line by line: compute the delta with the
current free-edge counts, clamp it to the current event's distance,
decrement the edge count for the event's axis, apply the delta to the
current and all remaining events' edges, and stop early when the
(decremented) event distance exceeds the applied delta. -/
def expandLoop (target : Int) : List EdgeEvent → Int → ExpandState → ExpandState
  | [], _, st => st
  | e :: rest, acc, st =>
    let dist := e.distance - acc
    let d0 := computeExpansionDelta st.numX st.numY st.w st.h target
    let d := if d0 > dist then dist else d0
    let st1 :=
      if e.edge.isX then { st with numX := st.numX - 1 }
      else { st with numY := st.numY - 1 }
    let st2 := applyAll d (e :: rest) st1
    if d < dist - d then st2 else expandLoop target rest (acc + d) st2

/-- The computation core of `ExpandRectEquallyToAreaBoundedBy` (everything
after the memo lookup; every return path of the source stores exactly this
value into `cache->previous_result`). -/
def expandRectCore (startingRect : GfxRect) (target : Int) (boundingRect : GfxRect) :
    GfxRect :=
  let delta := computeExpansionDelta 2 2 startingRect.w startingRect.h target
  let expanded :=
    if delta > 0 then startingRect.inset (-delta) (-delta) (-delta) (-delta)
    else startingRect
  let rect := intersectRects expanded boundingRect
  if rect.isEmpty then rect
  else if 0 ≤ delta ∧ rect = expanded then rect
  else
    let evB : EdgeEvent := ⟨.bottom, rect.y - boundingRect.y⟩
    let evT : EdgeEvent := ⟨.top, boundingRect.bottom - rect.bottom⟩
    let evL : EdgeEvent := ⟨.left, rect.x - boundingRect.x⟩
    let evR : EdgeEvent := ⟨.right, boundingRect.right - rect.right⟩
    let st := expandLoop target (sortEvents evB evT evL evR) 0
      ⟨rect.x, rect.y, rect.w, rect.h, 2, 2⟩
    mkRect st.ox st.oy st.w st.h

/-- `PictureLayerTiling::RectExpansionCache` (default-constructed with
empty rectangles and target 0). -/
structure RectExpansionCache where
  previousStart : GfxRect
  previousBounds : GfxRect
  previousTarget : Int
  previousResult : GfxRect
deriving DecidableEq, Repr

/-- The default-constructed cache. -/
def RectExpansionCache.initial : RectExpansionCache :=
  ⟨⟨0, 0, 0, 0⟩, ⟨0, 0, 0, 0⟩, 0, ⟨0, 0, 0, 0⟩⟩

/-- `PictureLayerTiling::ExpandRectEquallyToAreaBoundedBy`: empty starting
rectangles return immediately; a cache hit returns the memoized result;
otherwise the three keys are stored, the result is computed, and every
return path stores the result into the cache. -/
def expandRectEquallyToAreaBoundedBy (startingRect : GfxRect) (target : Int)
    (boundingRect : GfxRect) (cache : Option RectExpansionCache) :
    GfxRect × Option RectExpansionCache :=
  if startingRect.isEmpty then (startingRect, cache)
  else
    match cache with
    | some c =>
      if c.previousStart = startingRect ∧ c.previousBounds = boundingRect ∧
          c.previousTarget = target then
        (c.previousResult, some c)
      else
        let result := expandRectCore startingRect target boundingRect
        (result, some ⟨startingRect, boundingRect, target, result⟩)
    | none => (expandRectCore startingRect target boundingRect, none)

/-- The invariant of the expansion loop: the free-edge counters track the
remaining events' axes, each remaining event's (decremented) distance is
the actual gap between its edge and the bounding rectangle, the rectangle
lies inside the bounds, its area has not overshot the target, and the
remaining events are distinct-edged and sorted by distance. -/
structure ExpandInv (B : GfxRect) (target : Int) (evs : List EdgeEvent)
    (acc : Int) (st : ExpandState) : Prop where
  numX_eq : st.numX = (evs.countP (fun e => e.edge.isX) : Int)
  numY_eq : st.numY = (evs.countP (fun e => !e.edge.isX) : Int)
  dist_eq : ∀ e ∈ evs, e.distance - acc = gapOf B st e.edge
  gaps : ∀ k, 0 ≤ gapOf B st k
  area : st.w * st.h ≤ target
  wpos : 0 < st.w
  hpos : 0 < st.h
  nodupEdges : (evs.map (fun e => e.edge)).Nodup
  sorted : evs.Pairwise (fun e1 e2 => e1.distance ≤ e2.distance)

/-!
### The tile grid (`TilingData`)

`TilingData` is declared in `cc/base/tiling_data.h`, which is not among
the shown sources; only its callers are.  Modelled from the spec (§4.1
Grid Mapper): given total content size and tile size with border texels,
it converts a coordinate to its tile index (clamped to the valid range), a
tile index to its full bounds and bounds-with-border, and a rectangle to
the index range of tiles it overlaps; the grid count is
`ceil(total / interior span)` (§3: grid total size = ceil(layer bounds x
scale); the scenario with border 0 and tile 256 gives ceil(1000/256) = 4).
Interior tiles advance by the interior span `tile size - 2 * border`; the
first and last tiles absorb the outer borders so that the borderless tile
bounds exactly partition `[0, total)`.  The three dimension helpers below
are generic in (tile size, total, border) and are instantiated per axis.
-/
/-- Modelled from the spec: number of tiles along one dimension, a
clamped ceiling count over the interior span. -/
def numTilesDim (maxTexture total border : Int) : Int :=
  if maxTexture - 2 * border ≤ 0 then (if 0 < total ∧ total ≤ maxTexture then 1 else 0)
  else if total ≤ 0 then 0
  else max 1 (1 + Int.tdiv (total - 1 - 2 * border) (maxTexture - 2 * border))

/-- Modelled from the spec: position of a tile's borderless bounds along
one dimension. -/
def tilePosDim (maxTexture border : Int) (i : Int) : Int :=
  if i = 0 then 0 else (maxTexture - 2 * border) * i + border

/-- Modelled from the spec: extent of a tile's borderless bounds along one
dimension. -/
def tileSizeDim (maxTexture total border : Int) (i : Int) : Int :=
  if i = 0 ∧ numTilesDim maxTexture total border = 1 then total
  else if i = 0 then maxTexture - border
  else if i < numTilesDim maxTexture total border - 1 then maxTexture - 2 * border
  else total - tilePosDim maxTexture border i

/-- Modelled from the spec: tile index of a coordinate, clamped to the
valid range. -/
def tileIndexDim (maxTexture total border : Int) (x : Int) : Int :=
  if numTilesDim maxTexture total border ≤ 1 then 0
  else min (max (Int.tdiv (x - border) (maxTexture - 2 * border)) 0)
    (numTilesDim maxTexture total border - 1)

/-- Modelled from the spec: the grid configuration of a tiling
(`cc/base/tiling_data.h`): tile size ("max texture size"), total content
size, and border texels. -/
structure TilingData where
  maxTextureW : Int
  maxTextureH : Int
  totalW : Int
  totalH : Int
  border : Int
deriving DecidableEq, Repr

def TilingData.numTilesX (td : TilingData) : Int :=
  numTilesDim td.maxTextureW td.totalW td.border

def TilingData.numTilesY (td : TilingData) : Int :=
  numTilesDim td.maxTextureH td.totalH td.border

def TilingData.tilePositionX (td : TilingData) (i : Int) : Int :=
  tilePosDim td.maxTextureW td.border i

def TilingData.tilePositionY (td : TilingData) (j : Int) : Int :=
  tilePosDim td.maxTextureH td.border j

def TilingData.tileSizeX (td : TilingData) (i : Int) : Int :=
  tileSizeDim td.maxTextureW td.totalW td.border i

def TilingData.tileSizeY (td : TilingData) (j : Int) : Int :=
  tileSizeDim td.maxTextureH td.totalH td.border j

/-- `TilingData::TileBounds`: the borderless bounds of tile `(i, j)`. -/
def TilingData.tileBounds (td : TilingData) (i j : Int) : GfxRect :=
  mkRect (td.tilePositionX i) (td.tilePositionY j) (td.tileSizeX i) (td.tileSizeY j)

/-- `TilingData::TileBoundsWithBorder`: the bounds including border
texels, clipped to the total size. -/
def TilingData.tileBoundsWithBorder (td : TilingData) (i j : Int) : GfxRect :=
  let lox := (td.maxTextureW - 2 * td.border) * i
  let loy := (td.maxTextureH - 2 * td.border) * j
  let hix := min (lox + td.maxTextureW) td.totalW
  let hiy := min (loy + td.maxTextureH) td.totalH
  mkRect lox loy (hix - lox) (hiy - loy)

/-- `TilingData::TileXIndexFromSrcCoord`. -/
def TilingData.tileXIndexFromSrcCoord (td : TilingData) (x : Int) : Int :=
  tileIndexDim td.maxTextureW td.totalW td.border x

/-- `TilingData::TileYIndexFromSrcCoord`. -/
def TilingData.tileYIndexFromSrcCoord (td : TilingData) (y : Int) : Int :=
  tileIndexDim td.maxTextureH td.totalH td.border y

/-- The full content rectangle `gfx::Rect(tiling_data_.total_size())`. -/
def TilingData.totalRect (td : TilingData) : GfxRect :=
  mkRect 0 0 td.totalW td.totalH

/-- Well-formedness of a grid configuration: non-negative border, a tile
size strictly larger than the two borders it contains, and a non-empty
total size (the `DCHECK`ed contract of `TilingData`). -/
def TilingData.WF (td : TilingData) : Prop :=
  0 ≤ td.border ∧ 2 * td.border < td.maxTextureW ∧ 2 * td.border < td.maxTextureH ∧
    0 < td.totalW ∧ 0 < td.totalH

/-!
### The coverage iterator

Translation of `PictureLayerTiling::CoverageIterator` (constructor at
lines 309-355, `operator++` at lines 360-421).  The tiling is represented
by its grid configuration `td` and a tile lookup function `tiles` (what
`TileAt(tree, i, j)` returns for the iterator's tree); the float
`dest_to_content_scale_` is an exact rational.
-/
structure CoverageIterator where
  td : TilingData
  tiles : Int → Int → Option Nat
  destRect : GfxRect
  destToContentScale : ℚ
  currentTile : Option Nat
  tileI : Int
  tileJ : Int
  left : Int
  top : Int
  right : Int
  bottom : Int
  currentGeometryRect : GfxRect

/-- The tail of `operator++` once the target cell `(i, j)` is known: look
up the tile, compute the geometry rectangle (tile bounds mapped into
destination space and clipped against the destination rectangle), and on
every step but the first inset it against the previous step's edge. -/
def coverageAdvance (it : CoverageIterator) (i j : Int) (newRow firstTime : Bool) :
    CoverageIterator :=
  let tile := it.tiles i j
  let contentRect := it.td.tileBounds i j
  let geom0 := intersectRects
    (scaleToEnclosingRect contentRect (1 / it.destToContentScale)) it.destRect
  if firstTime then
    { it with
      tileI := i
      tileJ := j
      currentTile := tile
      currentGeometryRect := geom0 }
  else
    let last := it.currentGeometryRect
    let minLeft := if newRow then it.destRect.x else last.right
    let minTop := if newRow then last.bottom else last.y
    let insetLeft := max 0 (minLeft - geom0.x)
    let insetTop := max 0 (minTop - geom0.y)
    { it with
      tileI := i
      tileJ := j
      currentTile := tile
      currentGeometryRect := geom0.inset insetLeft insetTop 0 0 }

/-- `CoverageIterator::operator++`: advance to the next column, wrapping
to the next row at the right edge; past the last row the current tile
becomes the absent sentinel and the iterator no longer moves. -/
def coverageStep (it : CoverageIterator) : CoverageIterator :=
  if it.tileJ > it.bottom then it
  else
    let firstTime := it.tileI < it.left
    let newI := it.tileI + 1
    if newI > it.right then
      let j2 := it.tileJ + 1
      if j2 > it.bottom then
        { it with tileI := it.left, tileJ := j2, currentTile := none }
      else coverageAdvance it it.left j2 true firstTime
    else coverageAdvance it newI it.tileJ false firstTime

/-- The `CoverageIterator` constructor: an empty destination rectangle or
a destination footprint that misses the content rectangle leaves the
iterator past its last row (`right_ = bottom_ = -1`); otherwise the index
range is derived from the clipped content-space footprint and the
iterator is advanced once onto the first cell. -/
def coverageInit (td : TilingData) (tiles : Int → Int → Option Nat)
    (contentsScale destScale : ℚ) (destRect : GfxRect) : CoverageIterator :=
  let base : CoverageIterator :=
    ⟨td, tiles, destRect, 0, none, 0, 0, 0, 0, -1, -1, ⟨0, 0, 0, 0⟩⟩
  if destRect.isEmpty then base
  else
    let ratio := contentsScale / destScale
    let contentRect := intersectRects (scaleToEnclosingRect destRect ratio) td.totalRect
    if contentRect.isEmpty then { base with destToContentScale := ratio }
    else
      coverageStep { base with
        destToContentScale := ratio
        left := td.tileXIndexFromSrcCoord contentRect.x
        top := td.tileYIndexFromSrcCoord contentRect.y
        right := td.tileXIndexFromSrcCoord (contentRect.right - 1)
        bottom := td.tileYIndexFromSrcCoord (contentRect.bottom - 1)
        tileI := td.tileXIndexFromSrcCoord contentRect.x - 1
        tileJ := td.tileYIndexFromSrcCoord contentRect.y }

/-- The iterator state the coverage iterator reaches on cell `(i, j)` when
iterating over the full content rectangle at the tiling's own scale. -/
def coverageCell (td : TilingData) (tiles : Int → Int → Option Nat) (i j : Int) :
    CoverageIterator :=
  { td := td
    tiles := tiles
    destRect := td.totalRect
    destToContentScale := 1
    currentTile := tiles i j
    tileI := i
    tileJ := j
    left := 0
    top := 0
    right := td.numTilesX - 1
    bottom := td.numTilesY - 1
    currentGeometryRect := td.tileBounds i j }

/-!
### The tiling state machine

Translation of `PictureLayerTiling`'s mutating operations (`CreateTile`,
`RemoveTile`, `RemoveBundleContainingTileAtIfEmpty`, `SetLiveTilesRect`,
`Invalidate`, `SetLayerBounds`) over a single tiling whose twin tiling is
absent.  Tiles are opaque ids (`Nat`); the collaborator's answers during
a call (invalidation-region test, created tile) are oracle parameters
carried by the operation.
-/
inductive WhichTree where
  | pending
  | active
deriving DecidableEq, Repr

def WhichTree.other : WhichTree → WhichTree
  | .pending => .active
  | .active => .pending

/-- `ComputeTileBundleIndex` with `kTileBundleWidth = kTileBundleHeight = 2`
(C++ integer division). -/
def tileBundleIndex (i j : Int) : Int × Int := (Int.tdiv i 2, Int.tdiv j 2)

/-- The collaborator's answers consulted during one `CreateTile` call:
`client_->GetInvalidation()->Intersects(rect)` and
`client_->CreateTile(this, tile_rect)` (a null tile is `none`). -/
structure TileOracle where
  invalIntersects : GfxRect → Bool
  clientTile : GfxRect → Option Nat

/-- The mutable state of one `PictureLayerTiling`: grid configuration,
contents scale, current tree, live tiles rect, the bundle collection's
key set, and the tile slots (what `TileBundle::TileAt` answers per tree
and cell for bundles that exist). -/
structure TilingState where
  td : TilingData
  contentsScale : ℚ
  curTree : WhichTree
  live : GfxRect
  keys : Finset (Int × Int)
  tiles : WhichTree → Int → Int → Option Nat

def updateTiles (f : WhichTree → Int → Int → Option Nat) (tree : WhichTree)
    (i j : Int) (v : Option Nat) : WhichTree → Int → Int → Option Nat :=
  fun t a b => if t = tree ∧ a = i ∧ b = j then v else f t a b

/-- `TileBundle::IsEmpty()`: no slot of the bundle's 2-by-2 cell window
is occupied for either tree. -/
def bundleEmpty (tiles : WhichTree → Int → Int → Option Nat) (k : Int × Int) : Bool :=
  [((0 : Int), (0 : Int)), (0, 1), (1, 0), (1, 1)].all fun d =>
    [WhichTree.pending, WhichTree.active].all fun t =>
      (tiles t (2 * k.1 + d.1) (2 * k.2 + d.2)).isNone

/-- `PictureLayerTiling::TileAt`: the lookup goes through the owning
bundle, so a missing bundle key yields the null tile. -/
def TilingState.tileAt (st : TilingState) (tree : WhichTree) (i j : Int) : Option Nat :=
  if tileBundleIndex i j ∈ st.keys then st.tiles tree i j else none

/-- `PictureLayerTiling::CreateTile` (lines 146-173) with an absent twin
tiling: locate or create the bundle, try to adopt the other tree's tile
when its back-mapped paint rectangle misses the invalidation region,
otherwise request a new tile from the collaborator and store it only
when non-null.  Also returns whether a new tile was requested. -/
def createTileCore (st : TilingState) (tree : WhichTree) (i j : Int)
    (o : TileOracle) : TilingState × Bool :=
  let key := tileBundleIndex i j
  let keys2 := insert key st.keys
  let paintRect := st.td.tileBoundsWithBorder i j
  let tileRect := GfxRect.mk paintRect.x paintRect.y st.td.maxTextureW st.td.maxTextureH
  let candidate : Option Nat :=
    if key ∈ st.keys then st.tiles tree.other i j else none
  match candidate with
  | some t =>
      if o.invalIntersects (scaleToEnclosingRect paintRect (1 / st.contentsScale)) then
        match o.clientTile tileRect with
        | some t2 =>
            ({ st with keys := keys2
                       tiles := updateTiles st.tiles tree i j (some t2) }, true)
        | none => ({ st with keys := keys2 }, true)
      else
        ({ st with keys := keys2
                   tiles := updateTiles st.tiles tree i j (some t) }, false)
  | none =>
      match o.clientTile tileRect with
      | some t2 =>
          ({ st with keys := keys2
                     tiles := updateTiles st.tiles tree i j (some t2) }, true)
      | none => ({ st with keys := keys2 }, true)

def createTile (st : TilingState) (tree : WhichTree) (i j : Int)
    (o : TileOracle) : TilingState :=
  (createTileCore st tree i j o).1

/-- `PictureLayerTiling::RemoveTile` (lines 175-183): a missing bundle
means nothing to remove; otherwise clear the slot and report whether it
was occupied. -/
def removeTileCore (st : TilingState) (tree : WhichTree) (i j : Int) :
    TilingState × Bool :=
  let key := tileBundleIndex i j
  if key ∈ st.keys then
    ({ st with tiles := updateTiles st.tiles tree i j none },
      (st.tiles tree i j).isSome)
  else (st, false)

def removeTile (st : TilingState) (tree : WhichTree) (i j : Int) : TilingState :=
  (removeTileCore st tree i j).1

/-- `PictureLayerTiling::RemoveBundleContainingTileAtIfEmpty`
(lines 185-193). -/
def removeBundleIfEmpty (st : TilingState) (i j : Int) : TilingState :=
  let key := tileBundleIndex i j
  if key ∈ st.keys ∧ bundleEmpty st.tiles key then
    { st with keys := st.keys.erase key }
  else st

/-- Modelled from the spec: the half-open index range of tiles a
rectangle overlaps (`TilingData::Iterator`), clipped against the content
rectangle; `none` when the clipped rectangle is empty. -/
def indexRange (td : TilingData) (r : GfxRect) : Option (Int × Int × Int × Int) :=
  let c := intersectRects r td.totalRect
  if c.isEmpty then none
  else some (td.tileXIndexFromSrcCoord c.x, td.tileYIndexFromSrcCoord c.y,
    td.tileXIndexFromSrcCoord (c.right - 1), td.tileYIndexFromSrcCoord (c.bottom - 1))

def inIndexRange : Option (Int × Int × Int × Int) → Int × Int → Bool
  | none, _ => false
  | some (l, t, r, b), c => decide (l ≤ c.1 ∧ c.1 ≤ r ∧ t ≤ c.2 ∧ c.2 ≤ b)

/-- The cells of an index range in row-major order. -/
def cellsOf : Option (Int × Int × Int × Int) → List (Int × Int)
  | none => []
  | some (l, t, r, b) =>
      (List.range (b - t + 1).toNat).flatMap fun (dj : Nat) =>
        (List.range (r - l + 1).toNat).map fun (di : Nat) =>
          (l + (di : Int), t + (dj : Int))

/-- Modelled from the spec: `TilingData::DifferenceIterator` — the cells
of `consider`'s index range whose index is not in `ignore`'s range. -/
def diffCells (td : TilingData) (consider ignore : GfxRect) : List (Int × Int) :=
  (cellsOf (indexRange td consider)).filter
    fun c => ! inIndexRange (indexRange td ignore) c

/-- One step of `SetLiveTilesRect`'s removal loop: remove the current
tree's tile at the cell, then erase the owning bundle if it became
empty. -/
def liveRemoveStep (s : TilingState) (c : Int × Int) : TilingState :=
  removeBundleIfEmpty (removeTile s s.curTree c.1 c.2) c.1 c.2

/-- `PictureLayerTiling::SetLiveTilesRect` (lines 698-736) with an
absent twin tiling; `co` supplies the collaborator's answers for each
created cell. -/
def setLiveTilesRect (st : TilingState) (newRect : GfxRect)
    (co : Int → Int → TileOracle) : TilingState :=
  if st.live = newRect then st
  else
    let removed := diffCells st.td st.live newRect
    let st1 := removed.foldl liveRemoveStep st
    if newRect.isEmpty then { st1 with live := newRect }
    else
      let added := diffCells st.td newRect st.live
      let st2 := added.foldl (fun s c => createTile s s.curTree c.1 c.2 (co c.1 c.2)) st1
      { st2 with live := newRect }

/-- `PictureLayerTiling::Invalidate` (lines 267-296), the region given as
a list of layer-space rectangles: first remove every affected pending
tile, collecting the cells whose removal deleted a tile, then re-create
tiles for exactly those cells. -/
def invalidateOp (st : TilingState) (region : List GfxRect)
    (co : Int → Int → TileOracle) : TilingState :=
  let step := fun (acc : TilingState × List (Int × Int)) (lr : GfxRect) =>
    let contentRect := intersectRects (scaleToEnclosingRect lr st.contentsScale) st.live
    (cellsOf (indexRange st.td contentRect)).foldl
      (fun (a : TilingState × List (Int × Int)) c =>
        let r := removeTileCore a.1 .pending c.1 c.2
        (r.1, if r.2 then a.2 ++ [c] else a.2)) acc
  let fin := region.foldl step (st, [])
  fin.2.foldl (fun s c => createTile s .pending c.1 c.2 (co c.1 c.2)) fin.1

/-- Modelled from the spec: `Reset()` — all bundles dropped, live rect
cleared. -/
def resetOp (st : TilingState) : TilingState :=
  { st with keys := ∅, tiles := fun _ _ _ => none, live := ⟨0, 0, 0, 0⟩ }

/-- `PictureLayerTiling::SetLayerBounds` (lines 230-265): a changed tile
size resets the whole grid; otherwise the live rect is clipped to the
new content bounds, the total size updated, and the newly exposed layer
region invalidated.  The collaborator's tile-size choice and the exposed
region are oracle parameters. -/
def setLayerBoundsOp (st : TilingState) (newW newH : Int) (tileSizeChanged : Bool)
    (newTileW newTileH : Int) (exposed : List GfxRect)
    (co : Int → Int → TileOracle) : TilingState :=
  if tileSizeChanged then
    resetOp { st with td := ⟨newTileW, newTileH, newW, newH, st.td.border⟩ }
  else
    let bounded := intersectRects st.live (mkRect 0 0 newW newH)
    let st1 := setLiveTilesRect st bounded co
    let st2 := { st1 with td := { st1.td with totalW := newW, totalH := newH } }
    invalidateOp st2 exposed co

/-- The operations of claim C1, with the collaborator's answers carried
as oracle data.  Direct tile creation happens only at the non-negative
indices produced by the grid iterators. -/
inductive TilingOp where
  | create (tree : WhichTree) (i j : Int) (hi : 0 ≤ i) (hj : 0 ≤ j) (o : TileOracle)
  | remove (tree : WhichTree) (i j : Int)
  | setLive (r : GfxRect) (co : Int → Int → TileOracle)
  | invalidate (region : List GfxRect) (co : Int → Int → TileOracle)
  | setBounds (newW newH : Int) (tileSizeChanged : Bool) (newTileW newTileH : Int)
      (exposed : List GfxRect) (co : Int → Int → TileOracle)

def applyOp (st : TilingState) : TilingOp → TilingState
  | .create tree i j _ _ o => createTile st tree i j o
  | .remove tree i j => removeTile st tree i j
  | .setLive r co => setLiveTilesRect st r co
  | .invalidate region co => invalidateOp st region co
  | .setBounds nw nh ch tw th ex co => setLayerBoundsOp st nw nh ch tw th ex co

/-- A freshly constructed tiling: empty live rect, no bundles, no
tiles, current tree pending. -/
def initialState (td : TilingData) (scale : ℚ) : TilingState :=
  { td := td, contentsScale := scale, curTree := .pending,
    live := ⟨0, 0, 0, 0⟩, keys := ∅, tiles := fun _ _ _ => none }

def runOps (td : TilingData) (scale : ℚ) (ops : List TilingOp) : TilingState :=
  ops.foldl applyOp (initialState td scale)

/-- The spec's bundle-collection invariant, read of a state: a bundle
key is present iff some tile slot inside that bundle is occupied for
some tree. -/
def bundleKeyIff (st : TilingState) : Prop :=
  ∀ k : Int × Int, k ∈ st.keys ↔
    ∃ t i j, tileBundleIndex i j = k ∧ st.tiles t i j ≠ none

/-- The invariant the code actually maintains: every occupied slot has
non-negative indices and its owning bundle's key present. -/
def bundleInv (st : TilingState) : Prop :=
  ∀ t i j, st.tiles t i j ≠ none →
    0 ≤ i ∧ 0 ≤ j ∧ tileBundleIndex i j ∈ st.keys

/-!
### Twin bundle sharing

Translation of `PictureLayerTiling::CreateBundleForTileAt`
(lines 96-123) over a pair of twin tilings: bundle instances are opaque
ids in a shared slot store; each tiling maps present keys to the id of
its bundle. -/
structure BundleWorld where
  thisKeys : Finset (Int × Int)
  twinKeys : Finset (Int × Int)
  thisBundle : Int × Int → Nat
  twinBundle : Int × Int → Nat
  thisTexW : Int
  thisTexH : Int
  twinTexW : Int
  twinTexH : Int
  slots : Nat → WhichTree → Int → Int → Option Nat

/-- `CreateBundleForTileAt`: try the twin's bundle at the same key first
(geometry permitting), else obtain a fresh bundle from the collaborator.
Returns the new world, the bundle id stored, and whether the collaborator
was asked for a new bundle. -/
def createBundleForTileAt (w : BundleWorld) (i j : Int) (twinPresent : Bool)
    (freshId : Nat) : BundleWorld × Nat × Bool :=
  let key := tileBundleIndex i j
  let candidate : Option Nat :=
    if twinPresent ∧ w.thisTexW = w.twinTexW ∧ w.thisTexH = w.twinTexH then
      (if key ∈ w.twinKeys then some (w.twinBundle key) else none)
    else none
  match candidate with
  | some bid =>
      ({ w with thisKeys := insert key w.thisKeys
                thisBundle := fun k => if k = key then bid else w.thisBundle k },
        bid, false)
  | none =>
      ({ w with thisKeys := insert key w.thisKeys
                thisBundle := fun k => if k = key then freshId else w.thisBundle k },
        freshId, true)

/-- `TileBundle::AddTileAt` on the bundle instance `bid`. -/
def addTileToBundle (w : BundleWorld) (bid : Nat) (tree : WhichTree)
    (i j : Int) (tl : Nat) : BundleWorld :=
  { w with slots := fun b t a c =>
      if b = bid ∧ t = tree ∧ a = i ∧ c = j then some tl else w.slots b t a c }

/-- `PictureLayerTiling::TileAt` as seen from the twin tiling. -/
def twinTileAt (w : BundleWorld) (tree : WhichTree) (i j : Int) : Option Nat :=
  if tileBundleIndex i j ∈ w.twinKeys then
    w.slots (w.twinBundle (tileBundleIndex i j)) tree i j
  else none

/-- A small concrete twin-tiling world: the twin already holds bundle 3
at key (0, 0), geometry matching. -/
def twinDemoWorld : BundleWorld :=
  { thisKeys := ∅
    twinKeys := insert (0, 0) ∅
    thisBundle := fun _ => 0
    twinBundle := fun _ => 3
    thisTexW := 4
    thisTexH := 4
    twinTexW := 4
    twinTexH := 4
    slots := fun _ _ _ _ => none }

/-!
### Screen-space priority rectangles

Translation of the rectangle geometry of `UpdateTilePriorities`
(lines 526-693): float rectangles and the 2-D part of `gfx::Transform`
are exact rationals.
-/
/-- A float rectangle (`gfx::RectF`), embedded exactly. -/
structure GfxRectF where
  x : ℚ
  y : ℚ
  w : ℚ
  h : ℚ
deriving DecidableEq, Repr

def GfxRect.toF (r : GfxRect) : GfxRectF := ⟨r.x, r.y, r.w, r.h⟩

/-- The 2-D affine part of a `gfx::Transform`: matrix entries (0,0),
(0,1), (1,0), (1,1) and the translation entries (0,3), (1,3). -/
structure Transform2D where
  m00 : ℚ
  m01 : ℚ
  m10 : ℚ
  m11 : ℚ
  tx : ℚ
  ty : ℚ
deriving DecidableEq, Repr

/-- `Transform::IsApproximatelyIdentityOrTranslation` (exact form): the
linear part is the identity. -/
def Transform2D.isTranslation (T : Transform2D) : Prop :=
  T.m00 = 1 ∧ T.m01 = 0 ∧ T.m10 = 0 ∧ T.m11 = 1

def mapPoint (T : Transform2D) (p : ℚ × ℚ) : ℚ × ℚ :=
  (T.m00 * p.1 + T.m01 * p.2 + T.tx, T.m10 * p.1 + T.m11 * p.2 + T.ty)

/-- `gfx::ScaleRect` with a uniform scale. -/
def scaleRectF (r : GfxRectF) (s : ℚ) : GfxRectF :=
  ⟨r.x * s, r.y * s, r.w * s, r.h * s⟩

def boundingBox (p1 p2 p3 p4 : ℚ × ℚ) : GfxRectF :=
  let mnx := min (min p1.1 p2.1) (min p3.1 p4.1)
  let mny := min (min p1.2 p2.2) (min p3.2 p4.2)
  let mxx := max (max p1.1 p2.1) (max p3.1 p4.1)
  let mxy := max (max p1.2 p2.2) (max p3.2 p4.2)
  ⟨mnx, mny, mxx - mnx, mxy - mny⟩

/-- `MathUtil::MapClippedRect` for a transform without perspective: map
the rectangle's four corners and take the bounding box (no clipping
occurs). -/
def mapClippedRect (T : Transform2D) (r : GfxRectF) : GfxRectF :=
  boundingBox (mapPoint T (r.x, r.y)) (mapPoint T (r.x + r.w, r.y))
    (mapPoint T (r.x + r.w, r.y + r.h)) (mapPoint T (r.x, r.y + r.h))

/-- The translation-only fast path's screen rectangle (lines 535-557):
`gfx::ScaleRect(bundle_bounds, scale, scale) + offset`. -/
def translationScreenRect (T : Transform2D) (r : GfxRectF) (s : ℚ) : GfxRectF :=
  ⟨r.x * s + T.tx, r.y * s + T.ty, r.w * s, r.h * s⟩

/-- A small concrete tiling state: full live rect, one pending tile at
cell (0, 0) inside bundle (0, 0). -/
def c4DemoState : TilingState :=
  { td := ⟨4, 4, 10, 10, 1⟩
    contentsScale := 1
    curTree := WhichTree.pending
    live := ⟨0, 0, 10, 10⟩
    keys := insert (0, 0) ∅
    tiles := fun t i j =>
      if t = WhichTree.pending ∧ i = 0 ∧ j = 0 then some 5 else none }

theorem ratFloor_eq_floor (q : ℚ) : ratFloor q = ⌊q⌋ := by
  rw [ratFloor, Rat.floor_def]

theorem ratCeil_eq_ceil (q : ℚ) : ratCeil q = ⌈q⌉ := by
  rw [ratCeil, ratFloor_eq_floor, Int.floor_neg, neg_neg]

theorem ratFloor_intCast (n : Int) : ratFloor (n : ℚ) = n := by
  rw [ratFloor_eq_floor, Int.floor_intCast]

theorem ratCeil_intCast (n : Int) : ratCeil (n : ℚ) = n := by
  rw [ratCeil_eq_ceil, Int.ceil_intCast]

theorem scaleToEnclosingRect_one (r : GfxRect) (hw : 0 ≤ r.w) (hh : 0 ≤ r.h) :
    scaleToEnclosingRect r 1 = r := by
  obtain ⟨x, y, w, h⟩ := r
  simp only at hw hh
  simp only [scaleToEnclosingRect, GfxRect.right, GfxRect.bottom, mul_one,
    ratFloor_intCast, ratCeil_intCast, mkRect, GfxRect.mk.injEq, true_and]
  omega

theorem int_sqrt_mul_self_le {z : Int} (hz : 0 ≤ z) :
    Int.sqrt z * Int.sqrt z ≤ z := by
  unfold Int.sqrt
  calc ((Nat.sqrt z.toNat : Int)) * (Nat.sqrt z.toNat : Int)
      = ((Nat.sqrt z.toNat * Nat.sqrt z.toNat : ℕ) : Int) := by push_cast; ring
    _ ≤ (z.toNat : Int) := by exact_mod_cast Nat.sqrt_le z.toNat
    _ = z := Int.toNat_of_nonneg hz

theorem int_le_sqrt {b z : Int} (hb : 0 ≤ b) (h : b * b ≤ z) :
    b ≤ Int.sqrt z := by
  obtain ⟨n, rfl⟩ := Int.eq_ofNat_of_zero_le hb
  unfold Int.sqrt
  have hn : ((n * n : ℕ) : Int) ≤ z := by push_cast; exact_mod_cast h
  have hz : 0 ≤ z := le_trans (by positivity) hn
  have : n * n ≤ z.toNat := by omega
  exact_mod_cast Nat.le_sqrt.mpr this

/-- The delta computed with non-negative edge counts on a rectangle whose
area does not exceed the target is non-negative. -/
theorem computeExpansionDelta_nonneg {nx ny w h target : Int}
    (hnx : 0 ≤ nx) (hny : 0 ≤ ny) (hw : 0 < w) (hh : 0 < h)
    (harea : w * h ≤ target) :
    0 ≤ computeExpansionDelta nx ny w h target := by
  unfold computeExpansionDelta
  simp only
  split
  · exact Int.tdiv_nonneg (by omega) (by positivity)
  · next ha =>
    have ha' : 0 < ny * nx := lt_of_le_of_ne (by positivity) (Ne.symm ha)
    have hbn : 0 ≤ ny * w + nx * h := by positivity
    have hc : w * h - target ≤ 0 := by omega
    have hsq : ny * w + nx * h ≤
        Int.sqrt ((ny * w + nx * h) * (ny * w + nx * h) - 4 * (ny * nx) * (w * h - target)) := by
      apply int_le_sqrt hbn
      nlinarith
    exact Int.tdiv_nonneg (by omega) (by positivity)

/-- Any delta between `0` and the computed delta keeps the quadratic
`a d^2 + b d + c` non-positive: the area after applying it stays at most
the target area. -/
theorem computeExpansionDelta_quad_le {nx ny w h target : Int}
    (hnx : 0 ≤ nx) (hny : 0 ≤ ny) (hw : 0 < w) (hh : 0 < h)
    (hb : 0 < ny * w + nx * h)
    (harea : w * h ≤ target) (d : Int) (hd0 : 0 ≤ d)
    (hdle : d ≤ computeExpansionDelta nx ny w h target) :
    (ny * nx) * (d * d) + (ny * w + nx * h) * d + (w * h - target) ≤ 0 := by
  set a := ny * nx with ha_def
  set b := ny * w + nx * h with hb_def
  set c := w * h - target with hc_def
  have ha : 0 ≤ a := by positivity
  have hc : c ≤ 0 := by omega
  have key : a * (computeExpansionDelta nx ny w h target *
      computeExpansionDelta nx ny w h target) +
      b * computeExpansionDelta nx ny w h target + c ≤ 0 := by
    unfold computeExpansionDelta
    simp only [← ha_def, ← hb_def, ← hc_def]
    split
    · next haz =>
      rw [haz]
      have h1 : (-c).tdiv b = (-c) / b := Int.tdiv_eq_ediv (by omega) (by omega)
      have h2 : (-c) / b * b ≤ -c := Int.ediv_mul_le (-c) (by omega)
      rw [h1]
      nlinarith
    · next haz =>
      have ha' : 0 < a := lt_of_le_of_ne ha (Ne.symm haz)
      set disc := b * b - 4 * a * c with hdisc_def
      have hdiscb : b * b ≤ disc := by nlinarith
      have hdisc : 0 ≤ disc := le_trans (by positivity) hdiscb
      set q := Int.sqrt disc with hq_def
      have hq0 : 0 ≤ q := Int.sqrt_nonneg disc
      have hbq : b ≤ q := int_le_sqrt (by omega) hdiscb
      have hqq : q * q ≤ disc := int_sqrt_mul_self_le hdisc
      have hnum : 0 ≤ -b + q := by omega
      have h1 : (-b + q).tdiv (2 * a) = (-b + q) / (2 * a) :=
        Int.tdiv_eq_ediv hnum (by omega)
      have h2 : (-b + q) / (2 * a) * (2 * a) ≤ -b + q :=
        Int.ediv_mul_le _ (by omega)
      rw [h1]
      set e := (-b + q) / (2 * a) with he_def
      have he0 : 0 ≤ e := Int.ediv_nonneg hnum (by omega)
      have hae : 0 ≤ 2 * a * e := mul_nonneg (by positivity) he0
      have h3 : 2 * a * e + b ≤ q := by linarith
      have h4 : (2 * a * e + b) * (2 * a * e + b) ≤ q * q :=
        mul_self_le_mul_self (by omega) h3
      nlinarith
  nlinarith [mul_le_mul_of_nonneg_left (mul_self_le_mul_self hd0 hdle) ha,
    mul_le_mul_of_nonneg_left hdle (le_of_lt hb)]

theorem countP_isX_split : ∀ l : List EdgeEvent,
    l.countP (fun e => e.edge.isX) =
      l.countP (fun e => e.edge == EdgeKind.left) +
      l.countP (fun e => e.edge == EdgeKind.right)
  | [] => by simp
  | e :: rest => by
    have ih := countP_isX_split rest
    cases he : e.edge <;>
      simp [List.countP_cons, he, EdgeKind.isX] at ih ⊢ <;>
      omega

theorem countP_notX_split : ∀ l : List EdgeEvent,
    l.countP (fun e => !e.edge.isX) =
      l.countP (fun e => e.edge == EdgeKind.bottom) +
      l.countP (fun e => e.edge == EdgeKind.top)
  | [] => by simp
  | e :: rest => by
    have ih := countP_notX_split rest
    cases he : e.edge <;>
      simp [List.countP_cons, he, EdgeKind.isX] at ih ⊢ <;>
      omega

theorem applyAll_fields (d : Int) : ∀ (l : List EdgeEvent) (st : ExpandState),
    (applyAll d l st).ox = st.ox - (l.countP (fun e => e.edge == EdgeKind.left) : Int) * d ∧
    (applyAll d l st).oy = st.oy - (l.countP (fun e => e.edge == EdgeKind.bottom) : Int) * d ∧
    (applyAll d l st).w = st.w + (l.countP (fun e => e.edge.isX) : Int) * d ∧
    (applyAll d l st).h = st.h + (l.countP (fun e => !e.edge.isX) : Int) * d ∧
    (applyAll d l st).numX = st.numX ∧ (applyAll d l st).numY = st.numY
  | [], st => by simp [applyAll]
  | e :: rest, st => by
    have ih := applyAll_fields d rest (applyEdge d st e.edge)
    simp only [applyAll, List.foldl_cons] at ih ⊢
    obtain ⟨i1, i2, i3, i4, i5, i6⟩ := ih
    cases he : e.edge <;>
      simp only [he, applyEdge, List.countP_cons, EdgeKind.isX] at i1 i2 i3 i4 i5 i6 ⊢ <;>
      refine ⟨?_, ?_, ?_, ?_, ?_, ?_⟩ <;>
      simp [i1, i2, i3, i4, i5, i6] <;>
      push_cast <;> ring_nf

theorem applyAll_gap (B : GfxRect) (d : Int) (l : List EdgeEvent)
    (st : ExpandState) (k : EdgeKind) :
    gapOf B (applyAll d l st) k =
      gapOf B st k - (l.countP (fun e => e.edge == k) : Int) * d := by
  obtain ⟨f1, f2, f3, f4, _, _⟩ := applyAll_fields d l st
  have hx := countP_isX_split l
  have hy := countP_notX_split l
  cases k <;> simp [gapOf, f1, f2, f3, f4, hx, hy] <;> push_cast <;> ring

theorem countP_edge_eq_count (l : List EdgeEvent) (k : EdgeKind) :
    l.countP (fun e => e.edge == k) = (l.map (fun e => e.edge)).count k := by
  induction l with
  | nil => simp
  | cons e rest ih => simp [List.countP_cons, List.count_cons, ih]

theorem countP_edge_eq_one {l : List EdgeEvent}
    (hnd : (l.map (fun e => e.edge)).Nodup) {ev : EdgeEvent} (hmem : ev ∈ l) :
    l.countP (fun e => e.edge == ev.edge) = 1 := by
  rw [countP_edge_eq_count]
  have h1 : (l.map (fun e => e.edge)).count ev.edge ≤ 1 :=
    List.nodup_iff_count_le_one.mp hnd ev.edge
  have h2 : 0 < (l.map (fun e => e.edge)).count ev.edge := by
    rw [List.count_pos_iff]
    exact List.mem_map_of_mem _ hmem
  omega

theorem countP_edge_eq_zero {l : List EdgeEvent} {k : EdgeKind}
    (h : ∀ ev ∈ l, ev.edge ≠ k) :
    l.countP (fun e => e.edge == k) = 0 := by
  rw [List.countP_eq_zero]
  intro ev hmem
  simpa using h ev hmem

/-- Main property of the expansion loop: under the invariant, the loop
only grows the rectangle, never moves an edge past the bounding
rectangle, and keeps the extents positive. -/
theorem expandLoop_spec (B : GfxRect) (target : Int) :
    ∀ (evs : List EdgeEvent) (acc : Int) (st : ExpandState),
      ExpandInv B target evs acc st →
      (∀ k, 0 ≤ gapOf B (expandLoop target evs acc st) k) ∧
      (expandLoop target evs acc st).ox ≤ st.ox ∧
      (expandLoop target evs acc st).oy ≤ st.oy ∧
      st.ox + st.w ≤ (expandLoop target evs acc st).ox + (expandLoop target evs acc st).w ∧
      st.oy + st.h ≤ (expandLoop target evs acc st).oy + (expandLoop target evs acc st).h ∧
      0 < (expandLoop target evs acc st).w ∧
      0 < (expandLoop target evs acc st).h
  | [], acc, st, inv => by
    simp only [expandLoop]
    exact ⟨inv.gaps, le_refl _, le_refl _, le_refl _, le_refl _, inv.wpos, inv.hpos⟩
  | e :: rest, acc, st, inv => by
    simp only [expandLoop]
    generalize hd0_def : computeExpansionDelta st.numX st.numY st.w st.h target = d0
    set dist := e.distance - acc with hdist_def
    set d := if d0 > dist then dist else d0 with hd_def
    set st1 := (if e.edge.isX then { st with numX := st.numX - 1 }
      else { st with numY := st.numY - 1 }) with hst1_def
    set st2 := applyAll d (e :: rest) st1 with hst2_def
    have hdist_gap : dist = gapOf B st e.edge :=
      inv.dist_eq e (List.mem_cons_self e rest)
    have hdist0 : 0 ≤ dist := hdist_gap ▸ inv.gaps e.edge
    have hnx0 : 0 ≤ st.numX := by rw [inv.numX_eq]; positivity
    have hny0 : 0 ≤ st.numY := by rw [inv.numY_eq]; positivity
    have hd00 : 0 ≤ d0 := by
      rw [← hd0_def]
      exact computeExpansionDelta_nonneg hnx0 hny0 inv.wpos inv.hpos inv.area
    have hd_facts : 0 ≤ d ∧ d ≤ dist ∧ d ≤ d0 := by
      rw [hd_def]; split <;> omega
    obtain ⟨hd0', hddist, hdd0⟩ := hd_facts
    have hlen1 : 1 ≤ st.numX + st.numY := by
      rw [inv.numX_eq, inv.numY_eq]
      cases he : e.edge <;>
        simp [List.countP_cons, he, EdgeKind.isX] <;> omega
    have hb : 0 < st.numY * st.w + st.numX * st.h := by
      rcases (by omega : 1 ≤ st.numX ∨ 1 ≤ st.numY) with h1 | h1
      · nlinarith [inv.wpos, inv.hpos, mul_nonneg hny0 (le_of_lt inv.wpos)]
      · nlinarith [inv.wpos, inv.hpos, mul_nonneg hnx0 (le_of_lt inv.hpos)]
    have hq : (st.numY * st.numX) * (d * d) + (st.numY * st.w + st.numX * st.h) * d +
        (st.w * st.h - target) ≤ 0 := by
      have hdd0' : d ≤ computeExpansionDelta st.numX st.numY st.w st.h target := by
        rw [hd0_def]; exact hdd0
      exact computeExpansionDelta_quad_le hnx0 hny0 inv.wpos inv.hpos hb
        inv.area d hd0' hdd0'
    have hst1g : st1.ox = st.ox ∧ st1.oy = st.oy ∧ st1.w = st.w ∧ st1.h = st.h := by
      rw [hst1_def]; split <;> exact ⟨rfl, rfl, rfl, rfl⟩
    obtain ⟨hg1, hg2, hg3, hg4⟩ := hst1g
    have hgap1 : ∀ k, gapOf B st1 k = gapOf B st k := by
      intro k; cases k <;> simp [gapOf, hg1, hg2, hg3, hg4]
    obtain ⟨f1, f2, f3, f4, f5, f6⟩ := applyAll_fields d (e :: rest) st1
    rw [← hst2_def] at f1 f2 f3 f4 f5 f6
    -- gap of st2 for every edge kind
    have hgap2 : ∀ k, gapOf B st2 k =
        gapOf B st k - ((e :: rest).countP (fun ev => ev.edge == k) : Int) * d := by
      intro k
      rw [hst2_def, applyAll_gap, hgap1]
    have hsorted := List.pairwise_cons.mp inv.sorted
    have hgap2_nonneg : ∀ k, 0 ≤ gapOf B st2 k := by
      intro k
      rw [hgap2 k]
      by_cases hk : ∃ ev ∈ e :: rest, ev.edge = k
      · obtain ⟨ev, hmem, rfl⟩ := hk
        have hcnt := countP_edge_eq_one inv.nodupEdges hmem
        rw [hcnt]
        rcases List.mem_cons.mp hmem with rfl | hmem2
        · rw [← hdist_gap]; push_cast; omega
        · have hle : e.distance ≤ ev.distance := hsorted.1 ev hmem2
          have := inv.dist_eq ev (List.mem_cons_of_mem e hmem2)
          rw [← this]; push_cast; omega
      · push_neg at hk
        rw [countP_edge_eq_zero hk]
        simpa using inv.gaps k
    -- counts over the full event list
    have hcx : ((e :: rest).countP (fun ev => ev.edge.isX) : Int) = st.numX :=
      (inv.numX_eq).symm
    have hcy : ((e :: rest).countP (fun ev => !ev.edge.isX) : Int) = st.numY :=
      (inv.numY_eq).symm
    have hw2 : st2.w = st.w + st.numX * d := by rw [f3, hg3, hcx]
    have hh2 : st2.h = st.h + st.numY * d := by rw [f4, hg4, hcy]
    have harea2 : st2.w * st2.h ≤ target := by
      rw [hw2, hh2]
      nlinarith [hq]
    have hwpos2 : 0 < st2.w := by
      rw [hw2]; linarith [mul_nonneg hnx0 hd0', inv.wpos]
    have hhpos2 : 0 < st2.h := by
      rw [hh2]; linarith [mul_nonneg hny0 hd0', inv.hpos]
    -- monotonicity of st2 against st
    have hcsplitx := countP_isX_split (e :: rest)
    have hcsplity := countP_notX_split (e :: rest)
    have hmono2 : st2.ox ≤ st.ox ∧ st2.oy ≤ st.oy ∧
        st.ox + st.w ≤ st2.ox + st2.w ∧ st.oy + st.h ≤ st2.oy + st2.h := by
      refine ⟨?_, ?_, ?_, ?_⟩
      · rw [f1, hg1]
        linarith [mul_nonneg (Int.natCast_nonneg
          ((e :: rest).countP (fun ev => ev.edge == EdgeKind.left))) hd0']
      · rw [f2, hg2]
        linarith [mul_nonneg (Int.natCast_nonneg
          ((e :: rest).countP (fun ev => ev.edge == EdgeKind.bottom))) hd0']
      · rw [f1, f3, hg1, hg3]
        have hsplit : ((e :: rest).countP (fun ev => ev.edge.isX) : Int) =
            ((e :: rest).countP (fun ev => ev.edge == EdgeKind.left) : Int) +
            ((e :: rest).countP (fun ev => ev.edge == EdgeKind.right) : Int) := by
          push_cast [hcsplitx]; ring
        rw [hsplit]
        linarith [mul_nonneg (Int.natCast_nonneg
          ((e :: rest).countP (fun ev => ev.edge == EdgeKind.right))) hd0']
      · rw [f2, f4, hg2, hg4]
        have hsplit : ((e :: rest).countP (fun ev => !ev.edge.isX) : Int) =
            ((e :: rest).countP (fun ev => ev.edge == EdgeKind.bottom) : Int) +
            ((e :: rest).countP (fun ev => ev.edge == EdgeKind.top) : Int) := by
          push_cast [hcsplity]; ring
        rw [hsplit]
        linarith [mul_nonneg (Int.natCast_nonneg
          ((e :: rest).countP (fun ev => ev.edge == EdgeKind.top))) hd0']
    obtain ⟨hm1, hm2, hm3, hm4⟩ := hmono2
    split
    · exact ⟨hgap2_nonneg, hm1, hm2, hm3, hm4, hwpos2, hhpos2⟩
    · -- recursive case: re-establish the invariant for the tail
      have inv2 : ExpandInv B target rest (acc + d) st2 := by
        refine ⟨?_, ?_, ?_, hgap2_nonneg, harea2, hwpos2, hhpos2, ?_, hsorted.2⟩
        · rw [f5]
          rw [hst1_def]
          rw [inv.numX_eq]
          cases he : e.edge <;>
            simp [List.countP_cons, he, EdgeKind.isX] <;> push_cast <;> ring
        · rw [f6]
          rw [hst1_def]
          rw [inv.numY_eq]
          cases he : e.edge <;>
            simp [List.countP_cons, he, EdgeKind.isX] <;> push_cast <;> ring
        · intro ev hmem
          have hcnt := countP_edge_eq_one inv.nodupEdges (List.mem_cons_of_mem e hmem)
          have := inv.dist_eq ev (List.mem_cons_of_mem e hmem)
          rw [hgap2 ev.edge, hcnt, ← this]
          push_cast; ring
        · exact (List.nodup_cons.mp inv.nodupEdges).2
      obtain ⟨ih1, ih2, ih3, ih4, ih5, ih6, ih7⟩ :=
        expandLoop_spec B target rest (acc + d) st2 inv2
      exact ⟨ih1, le_trans ih2 hm1, le_trans ih3 hm2, le_trans hm3 ih4,
        le_trans hm4 ih5, ih6, ih7⟩

theorem mem_toSet (r : GfxRect) (p : Int × Int) :
    p ∈ r.toSet ↔ r.x ≤ p.1 ∧ p.1 < r.x + r.w ∧ r.y ≤ p.2 ∧ p.2 < r.y + r.h :=
  Iff.rfl

/-- `Intersect` computes exactly the set intersection. -/
theorem toSet_intersectRects (a b : GfxRect) :
    (intersectRects a b).toSet = a.toSet ∩ b.toSet := by
  ext p
  simp only [intersectRects, GfxRect.isEmpty, GfxRect.right, GfxRect.bottom,
    Set.mem_inter_iff, mem_toSet]
  split
  · next hemp => simp only [mem_toSet]; omega
  · next hemp =>
    push_neg at hemp
    split
    · next hcond => simp only [mem_toSet]; omega
    · next hcond => push_neg at hcond; simp only [mem_toSet]; omega

/-- When the intersection is non-empty it lies inside the second argument,
its extents are at most those of the first argument, and it is positive. -/
theorem intersectRects_props (a b : GfxRect)
    (hne : ¬ (intersectRects a b).isEmpty) :
    b.x ≤ (intersectRects a b).x ∧
    (intersectRects a b).right ≤ b.right ∧
    b.y ≤ (intersectRects a b).y ∧
    (intersectRects a b).bottom ≤ b.bottom ∧
    (intersectRects a b).w ≤ a.w ∧ (intersectRects a b).h ≤ a.h ∧
    0 < (intersectRects a b).w ∧ 0 < (intersectRects a b).h := by
  by_cases h1 : a.isEmpty ∨ b.isEmpty
  · exact absurd (show (intersectRects a b).isEmpty by
      simp only [intersectRects, if_pos h1]; exact Or.inl le_rfl) hne
  · by_cases h2 : min a.right b.right ≤ max a.x b.x ∨
        min a.bottom b.bottom ≤ max a.y b.y
    · exact absurd (show (intersectRects a b).isEmpty by
        simp only [intersectRects, if_neg h1, if_pos h2]; exact Or.inl le_rfl) hne
    · have hval : intersectRects a b =
          ⟨max a.x b.x, max a.y b.y, min a.right b.right - max a.x b.x,
            min a.bottom b.bottom - max a.y b.y⟩ := by
        simp only [intersectRects, if_neg h1, if_neg h2]
      rw [hval]
      simp only [GfxRect.isEmpty] at h1
      push_neg at h1 h2
      simp only [GfxRect.right, GfxRect.bottom] at h2 ⊢
      omega

/-- Facts about the sorting network applied to the four edge events of the
expansion loop: the output consists of the four inputs, has two events per
axis, has pairwise distinct edges, and is sorted by distance. -/
theorem sortEvents_facts (d1 d2 d3 d4 : Int) :
    (∀ e ∈ sortEvents ⟨.bottom, d1⟩ ⟨.top, d2⟩ ⟨.left, d3⟩ ⟨.right, d4⟩,
      e = ⟨.bottom, d1⟩ ∨ e = ⟨.top, d2⟩ ∨ e = ⟨.left, d3⟩ ∨ e = ⟨.right, d4⟩) ∧
    ((sortEvents ⟨.bottom, d1⟩ ⟨.top, d2⟩ ⟨.left, d3⟩ ⟨.right, d4⟩).countP
      (fun e => e.edge.isX)) = 2 ∧
    ((sortEvents ⟨.bottom, d1⟩ ⟨.top, d2⟩ ⟨.left, d3⟩ ⟨.right, d4⟩).countP
      (fun e => !e.edge.isX)) = 2 ∧
    ((sortEvents ⟨.bottom, d1⟩ ⟨.top, d2⟩ ⟨.left, d3⟩ ⟨.right, d4⟩).map
      (fun e => e.edge)).Nodup ∧
    (sortEvents ⟨.bottom, d1⟩ ⟨.top, d2⟩ ⟨.left, d3⟩ ⟨.right, d4⟩).Pairwise
      (fun e1 e2 => e1.distance ≤ e2.distance) := by
  simp only [sortEvents]
  split_ifs <;>
    refine ⟨?_, ?_, ?_, ?_, ?_⟩ <;>
    (try simp_all [List.countP_cons, EdgeKind.isX, List.pairwise_cons]) <;>
    (try omega) <;>
    (try tauto)

/-- **C2** (amended): for a non-empty starting rectangle, a positive
target area and a non-empty bounding rectangle, *and provided the target
area is at least the starting rectangle's area*, the rectangle returned by
`ExpandRectEquallyToAreaBoundedBy` contains the intersection of the
starting rectangle with the bounding rectangle and is contained in the
bounding rectangle (both read set-wise).  Without the added proviso the
claim is false: when the target area is smaller than the starting area the
event loop applies a negative delta and shrinks the rectangle below the
starting rectangle, see the counterexample theorem. -/
theorem expandRect_contains_and_bounded (startR bounds : GfxRect) (target : Int)
    (hs : ¬ startR.isEmpty) (hb : ¬ bounds.isEmpty) (ht : 0 < target)
    (harea : startR.w * startR.h ≤ target) :
    (expandRectEquallyToAreaBoundedBy startR target bounds none).1.toSet ⊆ bounds.toSet ∧
    startR.toSet ∩ bounds.toSet ⊆
      (expandRectEquallyToAreaBoundedBy startR target bounds none).1.toSet := by
  have hcall : (expandRectEquallyToAreaBoundedBy startR target bounds none).1
      = expandRectCore startR target bounds := by
    simp only [expandRectEquallyToAreaBoundedBy, if_neg hs]
  rw [hcall]
  have hwh : 0 < startR.w ∧ 0 < startR.h := by
    simp only [GfxRect.isEmpty] at hs; push_neg at hs; omega
  obtain ⟨hw0, hh0⟩ := hwh
  simp only [expandRectCore]
  generalize hdel : computeExpansionDelta 2 2 startR.w startR.h target = delta
  have hdel0 : 0 ≤ delta := by
    rw [← hdel]
    exact computeExpansionDelta_nonneg (by norm_num) (by norm_num) hw0 hh0 harea
  set expanded := if delta > 0 then startR.inset (-delta) (-delta) (-delta) (-delta)
    else startR with hexp_def
  have hexp_props : expanded.x ≤ startR.x ∧ expanded.y ≤ startR.y ∧
      startR.x + startR.w ≤ expanded.x + expanded.w ∧
      startR.y + startR.h ≤ expanded.y + expanded.h ∧
      0 < expanded.w ∧ 0 < expanded.h ∧
      expanded.w * expanded.h ≤ target := by
    rw [hexp_def]
    split
    · next hpos =>
      have hq := @computeExpansionDelta_quad_le 2 2 _ _ _
        (by norm_num) (by norm_num) hw0 hh0 (by linarith) harea delta hdel0
        (le_of_eq hdel.symm)
      have hwmax : max (startR.w - -delta - -delta) 0 = startR.w + 2 * delta := by
        omega
      have hhmax : max (startR.h - -delta - -delta) 0 = startR.h + 2 * delta := by
        omega
      simp only [GfxRect.inset, hwmax, hhmax]
      refine ⟨by omega, by omega, by omega, by omega, by omega, by omega, ?_⟩
      nlinarith [hq]
    · exact ⟨le_rfl, le_rfl, le_rfl, le_rfl, hw0, hh0, harea⟩
  obtain ⟨he1, he2, he3, he4, he5, he6, he7⟩ := hexp_props
  have hsub_exp : startR.toSet ⊆ expanded.toSet := by
    intro p hp; simp only [mem_toSet] at hp ⊢; omega
  set rect := intersectRects expanded bounds with hrect_def
  have hrect_set : rect.toSet = expanded.toSet ∩ bounds.toSet := by
    rw [hrect_def]; exact toSet_intersectRects _ _
  have hmain : startR.toSet ∩ bounds.toSet ⊆ rect.toSet := by
    rw [hrect_set]; exact fun p hp => ⟨hsub_exp hp.1, hp.2⟩
  have hrect_bounds : rect.toSet ⊆ bounds.toSet := by
    rw [hrect_set]; exact Set.inter_subset_right
  split
  · exact ⟨hrect_bounds, hmain⟩
  · next hne =>
    split
    · exact ⟨hrect_bounds, hmain⟩
    · have hprops := intersectRects_props expanded bounds hne
      rw [← hrect_def] at hprops
      obtain ⟨p1, p2, p3, p4, p5, p6, p7, p8⟩ := hprops
      simp only [GfxRect.right, GfxRect.bottom] at p1 p2 p3 p4
      have hfacts := sortEvents_facts (rect.y - bounds.y) (bounds.bottom - rect.bottom)
        (rect.x - bounds.x) (bounds.right - rect.right)
      obtain ⟨sm, sc1, sc2, snd, ssort⟩ := hfacts
      have hinv : ExpandInv bounds target
          (sortEvents ⟨.bottom, rect.y - bounds.y⟩ ⟨.top, bounds.bottom - rect.bottom⟩
            ⟨.left, rect.x - bounds.x⟩ ⟨.right, bounds.right - rect.right⟩) 0
          ⟨rect.x, rect.y, rect.w, rect.h, 2, 2⟩ := by
        refine ⟨?_, ?_, ?_, ?_, ?_, p7, p8, snd, ssort⟩
        · rw [sc1]; rfl
        · rw [sc2]; rfl
        · intro ev hmem
          rcases sm ev hmem with rfl | rfl | rfl | rfl <;>
            simp [gapOf, GfxRect.right, GfxRect.bottom] <;> ring
        · intro k
          cases k <;> simp only [gapOf, GfxRect.right, GfxRect.bottom] <;> omega
        · calc rect.w * rect.h ≤ expanded.w * expanded.h :=
                mul_le_mul p5 p6 (le_of_lt p8) (le_of_lt he5)
            _ ≤ target := he7
      have hloop := expandLoop_spec bounds target _ 0 _ hinv
      set st2 := expandLoop target
        (sortEvents ⟨.bottom, rect.y - bounds.y⟩ ⟨.top, bounds.bottom - rect.bottom⟩
          ⟨.left, rect.x - bounds.x⟩ ⟨.right, bounds.right - rect.right⟩) 0
        ⟨rect.x, rect.y, rect.w, rect.h, 2, 2⟩ with hst2
      obtain ⟨hg, hmx, hmy, hmr, hmb, hwp, hhp⟩ := hloop
      have hgl := hg .left
      have hgr := hg .right
      have hgb := hg .bottom
      have hgt := hg .top
      simp only [gapOf, GfxRect.right, GfxRect.bottom] at hgl hgr hgb hgt
      simp only at hmx hmy hmr hmb
      have hmk : mkRect st2.ox st2.oy st2.w st2.h =
          GfxRect.mk st2.ox st2.oy st2.w st2.h := by
        simp only [mkRect, GfxRect.mk.injEq, true_and]
        exact ⟨max_eq_left (le_of_lt hwp), max_eq_left (le_of_lt hhp)⟩
      rw [hmk]
      constructor
      · intro p hp
        simp only [mem_toSet] at hp ⊢
        omega
      · intro p hp
        have hp2 := hmain hp
        simp only [mem_toSet] at hp2 ⊢
        omega

/-- Counterexample to **C2** as stated: with starting rectangle
`(0,0,4,4)`, bounding rectangle `(0,0,4,4)` and target area `1` (all
satisfying the claim's hypotheses), the returned rectangle is `(1,1,2,2)`,
which does not contain the point `(0,0)` of the intersection of the
starting and bounding rectangles. -/
theorem expandRect_counterexample :
    ¬ (⟨0, 0, 4, 4⟩ : GfxRect).isEmpty ∧ (0 : Int) < 1 ∧
    ¬ ((⟨0, 0, 4, 4⟩ : GfxRect).toSet ∩ (⟨0, 0, 4, 4⟩ : GfxRect).toSet ⊆
        (expandRectEquallyToAreaBoundedBy ⟨0, 0, 4, 4⟩ 1 ⟨0, 0, 4, 4⟩ none).1.toSet) := by
  refine ⟨by decide, by decide, ?_⟩
  have hsqrt : Int.sqrt 16 = 4 := by
    rw [show (16 : Int) = 4 * 4 by norm_num, Int.sqrt_eq]
    rfl
  have hced : computeExpansionDelta 2 2 4 4 1 = -1 := by
    simp only [computeExpansionDelta]
    norm_num [hsqrt]
    decide
  have heval : (expandRectEquallyToAreaBoundedBy ⟨0, 0, 4, 4⟩ 1 ⟨0, 0, 4, 4⟩ none).1
      = ⟨1, 1, 2, 2⟩ := by
    simp only [expandRectEquallyToAreaBoundedBy, expandRectCore, hced]
    norm_num [GfxRect.isEmpty, GfxRect.inset, intersectRects, mkRect, GfxRect.right,
      GfxRect.bottom, sortEvents, expandLoop, applyAll, applyEdge, EdgeKind.isX, hced]
  intro hsub
  have h0 : ((0 : Int), (0 : Int)) ∈
      (⟨0, 0, 4, 4⟩ : GfxRect).toSet ∩ (⟨0, 0, 4, 4⟩ : GfxRect).toSet := by
    constructor <;> simp [mem_toSet]
  have := hsub h0
  rw [heval] at this
  simp only [mem_toSet] at this
  omega

/-- Witness for C2 (amended) at starting rect `(0,0,2,2)`, target `9`,
bounding rect `(0,0,4,4)`. -/
theorem expandRect_contains_and_bounded_witness :
    (¬ (⟨0, 0, 2, 2⟩ : GfxRect).isEmpty ∧ ¬ (⟨0, 0, 4, 4⟩ : GfxRect).isEmpty ∧
      (0 : Int) < 9 ∧ (⟨0, 0, 2, 2⟩ : GfxRect).w * (⟨0, 0, 2, 2⟩ : GfxRect).h ≤ 9) ∧
    ((expandRectEquallyToAreaBoundedBy ⟨0, 0, 2, 2⟩ 9 ⟨0, 0, 4, 4⟩ none).1.toSet ⊆
        (⟨0, 0, 4, 4⟩ : GfxRect).toSet ∧
      (⟨0, 0, 2, 2⟩ : GfxRect).toSet ∩ (⟨0, 0, 4, 4⟩ : GfxRect).toSet ⊆
        (expandRectEquallyToAreaBoundedBy ⟨0, 0, 2, 2⟩ 9 ⟨0, 0, 4, 4⟩ none).1.toSet) :=
  ⟨⟨by decide, by decide, by decide, by decide⟩,
    expandRect_contains_and_bounded ⟨0, 0, 2, 2⟩ ⟨0, 0, 4, 4⟩ 9
      (by decide) (by decide) (by decide) (by decide)⟩

theorem tdiv_nonpos_of_nonpos_of_nonneg {a b : Int} (ha : a ≤ 0) (hb : 0 ≤ b) :
    a.tdiv b ≤ 0 := by
  have h := Int.tdiv_nonneg (a := -a) (b := b) (by omega) hb
  rw [Int.neg_tdiv] at h
  omega

theorem numTilesDim_eq {m W b : Int} (hm : 2 * b < m) (hW : 0 < W) :
    numTilesDim m W b = max 1 (1 + Int.tdiv (W - 1 - 2 * b) (m - 2 * b)) := by
  unfold numTilesDim
  rw [if_neg (by omega), if_neg (by omega)]

theorem numTilesDim_pos {m W b : Int} (hm : 2 * b < m) (hW : 0 < W) :
    1 ≤ numTilesDim m W b := by
  rw [numTilesDim_eq hm hW]; omega

theorem numTilesDim_two {m W b : Int} (hm : 2 * b < m) (hW : 0 < W)
    (h2 : 2 ≤ numTilesDim m W b) :
    numTilesDim m W b = 1 + Int.tdiv (W - 1 - 2 * b) (m - 2 * b) ∧
      m - 2 * b ≤ W - 1 - 2 * b := by
  rw [numTilesDim_eq hm hW] at h2 ⊢
  have hq1 : 1 ≤ Int.tdiv (W - 1 - 2 * b) (m - 2 * b) := by omega
  refine ⟨by omega, ?_⟩
  by_contra hlt
  push_neg at hlt
  by_cases hneg : W - 1 - 2 * b < 0
  · have := tdiv_nonpos_of_nonpos_of_nonneg (a := W - 1 - 2 * b) (b := m - 2 * b)
      (by omega) (by omega)
    omega
  · push_neg at hneg
    rw [Int.tdiv_eq_ediv hneg (by omega)] at hq1
    have := (Int.ediv_lt_iff_lt_mul (a := W - 1 - 2 * b) (b := 1)
      (c := m - 2 * b) (by omega)).mpr (by omega)
    omega

theorem tilePosDim_zero {m b : Int} : tilePosDim m b 0 = 0 := by
  simp [tilePosDim]

theorem tilePosDim_of_ne {m b i : Int} (h : i ≠ 0) :
    tilePosDim m b i = (m - 2 * b) * i + b := by
  simp [tilePosDim, h]

theorem tileSizeDim_single {m W b : Int} (hn : numTilesDim m W b = 1) :
    tileSizeDim m W b 0 = W := by
  simp [tileSizeDim, hn]

theorem tileSizeDim_zero_of_two {m W b : Int} (hn : 2 ≤ numTilesDim m W b) :
    tileSizeDim m W b 0 = m - b := by
  have hne : numTilesDim m W b ≠ 1 := by omega
  simp [tileSizeDim, hne]

theorem tileSizeDim_mid {m W b i : Int} (h0 : i ≠ 0)
    (hmid : i < numTilesDim m W b - 1) :
    tileSizeDim m W b i = m - 2 * b := by
  simp [tileSizeDim, h0, hmid]

theorem tileSizeDim_last {m W b i : Int} (h0 : i ≠ 0)
    (hlast : ¬ i < numTilesDim m W b - 1) :
    tileSizeDim m W b i = W - tilePosDim m b i := by
  simp [tileSizeDim, h0, hlast]

theorem tilePosDim_nonneg {m b : Int} (hb : 0 ≤ b) (hm : 2 * b < m) :
    ∀ i, 0 ≤ i → 0 ≤ tilePosDim m b i := by
  intro i hi
  by_cases h0 : i = 0
  · rw [h0, tilePosDim_zero]
  · rw [tilePosDim_of_ne h0]
    have hi1 : 1 ≤ i := by omega
    nlinarith

theorem grid_step {m W b : Int} (hb : 0 ≤ b) (hm : 2 * b < m) (hW : 0 < W) :
    ∀ i, 0 ≤ i → i < numTilesDim m W b - 1 →
      tilePosDim m b i + tileSizeDim m W b i = tilePosDim m b (i + 1) := by
  intro i h0 hlt
  have hn2 : 2 ≤ numTilesDim m W b := by omega
  by_cases hi0 : i = 0
  · rw [hi0, tilePosDim_zero, tileSizeDim_zero_of_two hn2,
      tilePosDim_of_ne (by omega)]
    ring
  · rw [tilePosDim_of_ne hi0, tileSizeDim_mid hi0 hlt,
      tilePosDim_of_ne (by omega)]
    ring

theorem grid_last {m W b : Int} (hb : 0 ≤ b) (hm : 2 * b < m) (hW : 0 < W) :
    tilePosDim m b (numTilesDim m W b - 1) +
      tileSizeDim m W b (numTilesDim m W b - 1) = W := by
  have h1 := numTilesDim_pos hm hW
  rcases eq_or_lt_of_le h1 with h | h
  · rw [show numTilesDim m W b - 1 = 0 by omega, tilePosDim_zero,
      tileSizeDim_single (by omega)]
    ring
  · rw [tileSizeDim_last (by omega) (by omega)]
    ring

theorem grid_size_pos {m W b : Int} (hb : 0 ≤ b) (hm : 2 * b < m) (hW : 0 < W) :
    ∀ i, 0 ≤ i → i < numTilesDim m W b → 0 < tileSizeDim m W b i := by
  intro i h0 hn
  have h1 := numTilesDim_pos hm hW
  by_cases hone : numTilesDim m W b = 1
  · rw [show i = 0 by omega, tileSizeDim_single hone]
    exact hW
  · have hn2 : 2 ≤ numTilesDim m W b := by omega
    obtain ⟨hneq, hs_le⟩ := numTilesDim_two hm hW hn2
    by_cases hi0 : i = 0
    · rw [hi0, tileSizeDim_zero_of_two hn2]
      omega
    · by_cases hmid : i < numTilesDim m W b - 1
      · rw [tileSizeDim_mid hi0 hmid]
        omega
      · have hi_last : i = numTilesDim m W b - 1 := by omega
        rw [tileSizeDim_last hi0 hmid, tilePosDim_of_ne hi0]
        have hq_eq : numTilesDim m W b - 1 = Int.tdiv (W - 1 - 2 * b) (m - 2 * b) := by
          omega
        have hnum_nonneg : 0 ≤ W - 1 - 2 * b := by omega
        rw [Int.tdiv_eq_ediv hnum_nonneg (by omega)] at hq_eq
        have hmul := Int.ediv_mul_le (W - 1 - 2 * b) (b := m - 2 * b) (by omega)
        have : (m - 2 * b) * i ≤ W - 1 - 2 * b := by
          rw [hi_last, hq_eq]
          nlinarith [hmul]
        omega

theorem grid_mono {m W b : Int} (hb : 0 ≤ b) (hm : 2 * b < m) (hW : 0 < W) :
    ∀ k : Nat, ∀ i i' : Int, 0 ≤ i → i < i' → i' < numTilesDim m W b →
      (i' - i - 1).toNat = k →
      tilePosDim m b i + tileSizeDim m W b i ≤ tilePosDim m b i' := by
  intro k
  induction k with
  | zero =>
    intro i i' h0 hlt hn hk
    have hisucc : i' = i + 1 := by omega
    rw [hisucc, ← grid_step hb hm hW i h0 (by omega)]
  | succ k ih =>
    intro i i' h0 hlt hn hk
    have hstep := grid_step hb hm hW i h0 (by omega)
    have hsz := grid_size_pos hb hm hW (i + 1) (by omega) (by omega)
    have := ih (i + 1) i' (by omega) (by omega) hn (by omega)
    omega

theorem grid_bound {m W b : Int} (hb : 0 ≤ b) (hm : 2 * b < m) (hW : 0 < W) :
    ∀ i, 0 ≤ i → i < numTilesDim m W b →
      tilePosDim m b i + tileSizeDim m W b i ≤ W := by
  intro i h0 hn
  by_cases hlast : i = numTilesDim m W b - 1
  · rw [hlast, grid_last hb hm hW]
  · have hmono := grid_mono hb hm hW (numTilesDim m W b - 1 - i - 1).toNat i
      (numTilesDim m W b - 1) h0 (by omega) (by omega) rfl
    have hsz := grid_size_pos hb hm hW (numTilesDim m W b - 1) (by omega) (by omega)
    have hend := grid_last hb hm hW
    omega

theorem grid_index_spec {m W b : Int} (hb : 0 ≤ b) (hm : 2 * b < m) (hW : 0 < W) :
    ∀ x, 0 ≤ x → x < W →
      0 ≤ tileIndexDim m W b x ∧ tileIndexDim m W b x < numTilesDim m W b ∧
      tilePosDim m b (tileIndexDim m W b x) ≤ x ∧
      x < tilePosDim m b (tileIndexDim m W b x) +
        tileSizeDim m W b (tileIndexDim m W b x) := by
  intro x hx0 hxW
  have h1 := numTilesDim_pos hm hW
  by_cases hone : numTilesDim m W b ≤ 1
  · have hn1 : numTilesDim m W b = 1 := by omega
    unfold tileIndexDim tilePosDim tileSizeDim
    rw [if_pos hone, if_pos rfl, if_pos ⟨rfl, hn1⟩]
    refine ⟨le_rfl, by omega, hx0, by omega⟩
  · push_neg at hone
    obtain ⟨hneq, hs_le⟩ := numTilesDim_two hm hW (by omega)
    have hidx : tileIndexDim m W b x =
        min (max (Int.tdiv (x - b) (m - 2 * b)) 0) (numTilesDim m W b - 1) := by
      unfold tileIndexDim
      rw [if_neg (by omega)]
    by_cases ht0 : Int.tdiv (x - b) (m - 2 * b) ≤ 0
    · have hi0 : tileIndexDim m W b x = 0 := by rw [hidx]; omega
      rw [hi0]
      unfold tilePosDim tileSizeDim
      rw [if_pos rfl, if_neg (by omega), if_pos rfl]
      refine ⟨le_rfl, by omega, hx0, ?_⟩
      -- x < m - b
      by_cases hxb : x - b < 0
      · omega
      · push_neg at hxb
        rw [Int.tdiv_eq_ediv hxb (by omega)] at ht0
        have := Int.lt_ediv_add_one_mul_self (x - b) (b := m - 2 * b) (by omega)
        nlinarith
    · push_neg at ht0
      have hxb : 0 ≤ x - b := by
        by_contra hneg
        have := tdiv_nonpos_of_nonpos_of_nonneg (a := x - b) (b := m - 2 * b)
          (by omega) (by omega)
        omega
      rw [Int.tdiv_eq_ediv hxb (by omega)] at ht0 hidx
      have hlow := Int.ediv_mul_le (x - b) (b := m - 2 * b) (by omega)
      have hhigh := Int.lt_ediv_add_one_mul_self (x - b) (b := m - 2 * b) (by omega)
      by_cases htop : numTilesDim m W b - 1 ≤ (x - b) / (m - 2 * b)
      · have hi : tileIndexDim m W b x = numTilesDim m W b - 1 := by rw [hidx]; omega
        rw [hi]
        refine ⟨by omega, by omega, ?_, ?_⟩
        · unfold tilePosDim
          rw [if_neg (by omega)]
          -- s * (n-1) + b ≤ x
          have : (m - 2 * b) * (numTilesDim m W b - 1) ≤ (m - 2 * b) * ((x - b) / (m - 2 * b)) :=
            mul_le_mul_of_nonneg_left htop (by omega)
          nlinarith
        · have := grid_last hb hm hW
          omega
      · push_neg at htop
        have hi : tileIndexDim m W b x = (x - b) / (m - 2 * b) := by rw [hidx]; omega
        rw [hi]
        refine ⟨by omega, by omega, ?_, ?_⟩
        · unfold tilePosDim
          rw [if_neg (by omega)]
          nlinarith
        · unfold tilePosDim tileSizeDim
          rw [if_neg (by omega), if_neg (by omega), if_neg (by omega), if_pos htop]
          nlinarith

theorem grid_index_unique {m W b : Int} (hb : 0 ≤ b) (hm : 2 * b < m) (hW : 0 < W) :
    ∀ i x, 0 ≤ i → i < numTilesDim m W b →
      tilePosDim m b i ≤ x → x < tilePosDim m b i + tileSizeDim m W b i →
      tileIndexDim m W b x = i := by
  intro i x h0 hn hlo hhi
  have hx0 : 0 ≤ x := le_trans (tilePosDim_nonneg hb hm i h0) hlo
  have hxW : x < W := lt_of_lt_of_le hhi (grid_bound hb hm hW i h0 hn)
  obtain ⟨j0, jn, jlo, jhi⟩ := grid_index_spec hb hm hW x hx0 hxW
  rcases lt_trichotomy (tileIndexDim m W b x) i with h | h | h
  · have := grid_mono hb hm hW (i - tileIndexDim m W b x - 1).toNat
      (tileIndexDim m W b x) i j0 h hn rfl
    omega
  · exact h
  · have := grid_mono hb hm hW (tileIndexDim m W b x - i - 1).toNat i
      (tileIndexDim m W b x) h0 h jn rfl
    omega

theorem coverageStep_fixed {it : CoverageIterator} (h : it.bottom < it.tileJ) :
    coverageStep it = it := by
  unfold coverageStep
  rw [if_pos h]

theorem inset_zero {r : GfxRect} (hw : 0 ≤ r.w) (hh : 0 ≤ r.h) :
    r.inset 0 0 0 0 = r := by
  obtain ⟨x, y, w, h⟩ := r
  simp only at hw hh
  simp only [GfxRect.inset, GfxRect.mk.injEq]
  omega

theorem intersectRects_of_contained {a b : GfxRect} (ha : ¬ a.isEmpty)
    (h1 : b.x ≤ a.x) (h2 : a.right ≤ b.right) (h3 : b.y ≤ a.y)
    (h4 : a.bottom ≤ b.bottom) : intersectRects a b = a := by
  obtain ⟨ax, ay, aw, ah⟩ := a
  obtain ⟨bx, by2, bw, bh⟩ := b
  simp only [GfxRect.isEmpty, GfxRect.right, GfxRect.bottom, not_or] at ha h1 h2 h3 h4
  simp only [intersectRects, GfxRect.isEmpty, GfxRect.right, GfxRect.bottom]
  rw [if_neg (by omega), if_neg (by omega)]
  simp only [GfxRect.mk.injEq]
  omega

theorem grid_index_zero {m W b : Int} (hb : 0 ≤ b) (hm : 2 * b < m) (hW : 0 < W) :
    tileIndexDim m W b 0 = 0 := by
  have hn := numTilesDim_pos hm hW
  have hsz := grid_size_pos hb hm hW 0 le_rfl (by omega)
  exact grid_index_unique hb hm hW 0 0 le_rfl (by omega)
    (by rw [tilePosDim_zero]) (by rw [tilePosDim_zero]; omega)

theorem grid_index_last {m W b : Int} (hb : 0 ≤ b) (hm : 2 * b < m) (hW : 0 < W) :
    tileIndexDim m W b (W - 1) = numTilesDim m W b - 1 := by
  have hn := numTilesDim_pos hm hW
  have hsz := grid_size_pos hb hm hW (numTilesDim m W b - 1) (by omega) (by omega)
  have hlast := grid_last hb hm hW
  exact grid_index_unique hb hm hW (numTilesDim m W b - 1) (W - 1) (by omega)
    (by omega) (by omega) (by omega)

/-- Field values and range facts for a valid tile's borderless bounds. -/
theorem tileBounds_spec (td : TilingData) (hwf : td.WF) {i j : Int}
    (hi0 : 0 ≤ i) (hin : i < td.numTilesX) (hj0 : 0 ≤ j) (hjn : j < td.numTilesY) :
    td.tileBounds i j = GfxRect.mk (td.tilePositionX i) (td.tilePositionY j)
      (td.tileSizeX i) (td.tileSizeY j) ∧
    0 < td.tileSizeX i ∧ 0 < td.tileSizeY j ∧
    0 ≤ td.tilePositionX i ∧ 0 ≤ td.tilePositionY j ∧
    td.tilePositionX i + td.tileSizeX i ≤ td.totalW ∧
    td.tilePositionY j + td.tileSizeY j ≤ td.totalH := by
  obtain ⟨hb, hmX, hmY, hW, hH⟩ := hwf
  have hsx := grid_size_pos hb hmX hW i hi0 hin
  have hsy := grid_size_pos hb hmY hH j hj0 hjn
  have hpx := tilePosDim_nonneg hb hmX i hi0
  have hpy := tilePosDim_nonneg hb hmY j hj0
  have hbx := grid_bound hb hmX hW i hi0 hin
  have hby2 := grid_bound hb hmY hH j hj0 hjn
  refine ⟨?_, hsx, hsy, hpx, hpy, hbx, hby2⟩
  simp only [TilingData.tileBounds, mkRect, GfxRect.mk.injEq, true_and]
  constructor
  · exact max_eq_left (le_of_lt hsx)
  · exact max_eq_left (le_of_lt hsy)

theorem totalRect_fields (td : TilingData) (hwf : td.WF) :
    td.totalRect = GfxRect.mk 0 0 td.totalW td.totalH := by
  obtain ⟨hb, hmX, hmY, hW, hH⟩ := hwf
  simp only [TilingData.totalRect, mkRect, GfxRect.mk.injEq, true_and]
  omega

/-- At the tiling's own scale the geometry rectangle of a valid cell is
exactly the cell's borderless tile bounds. -/
theorem coverage_geom (td : TilingData) (hwf : td.WF) {i j : Int}
    (hi0 : 0 ≤ i) (hin : i < td.numTilesX) (hj0 : 0 ≤ j) (hjn : j < td.numTilesY) :
    intersectRects (scaleToEnclosingRect (td.tileBounds i j) (1 / (1 : ℚ)))
      td.totalRect = td.tileBounds i j := by
  obtain ⟨heq, hsx, hsy, hpx, hpy, hbx, hby2⟩ := tileBounds_spec td hwf hi0 hin hj0 hjn
  rw [show (1 : ℚ) / 1 = 1 by norm_num]
  rw [scaleToEnclosingRect_one _ (by rw [heq]; exact le_of_lt hsx)
    (by rw [heq]; exact le_of_lt hsy)]
  apply intersectRects_of_contained
  · rw [heq]
    simp only [GfxRect.isEmpty, not_or]
    omega
  · rw [heq, totalRect_fields td hwf]
    exact hpx
  · rw [heq, totalRect_fields td hwf]
    simp only [GfxRect.right]
    omega
  · rw [heq, totalRect_fields td hwf]
    exact hpy
  · rw [heq, totalRect_fields td hwf]
    simp only [GfxRect.bottom]
    omega

/-- Stepping the iterator from a valid cell that is not at the end of its
row advances to the next cell of the same row. -/
theorem coverage_step_next (td : TilingData) (tiles : Int → Int → Option Nat)
    (hwf : td.WF) {i j : Int}
    (hi0 : 0 ≤ i) (hin : i + 1 < td.numTilesX) (hj0 : 0 ≤ j) (hjn : j < td.numTilesY) :
    coverageStep (coverageCell td tiles i j) = coverageCell td tiles (i + 1) j := by
  have hb := hwf.1
  have hmX := hwf.2.1
  have hW := hwf.2.2.2.1
  have hgeom := coverage_geom td hwf (by omega : (0:Int) ≤ i + 1) hin hj0 hjn
  obtain ⟨heq1, hsx1, hsy1, hpx1, hpy1, hbx1, hby1⟩ :=
    tileBounds_spec td hwf hi0 (by omega) hj0 hjn
  obtain ⟨heq2, hsx2, hsy2, hpx2, hpy2, hbx2, hby2⟩ :=
    tileBounds_spec td hwf (by omega : (0:Int) ≤ i + 1) hin hj0 hjn
  have hadj : (td.tileBounds i j).right = (td.tileBounds (i + 1) j).x := by
    rw [heq1, heq2]
    simp only [GfxRect.right]
    have hin2 : i + 1 < numTilesDim td.maxTextureW td.totalW td.border := hin
    exact grid_step hb hmX hW i hi0 (by omega)
  have hyeq : (td.tileBounds i j).y = (td.tileBounds (i + 1) j).y := by
    rw [heq1, heq2]
  simp only [coverageStep, coverageAdvance, coverageCell]
  rw [if_neg (show ¬ j > td.numTilesY - 1 by omega)]
  rw [if_neg (show ¬ i + 1 > td.numTilesX - 1 by omega)]
  rw [hgeom]
  rw [if_neg (show ¬ (decide (i < 0) = true) by simp; omega)]
  simp only [Bool.false_eq_true, if_false]
  rw [show (0 : Int) ⊔ ((td.tileBounds i j).right - (td.tileBounds (i + 1) j).x) = 0 by
    rw [hadj]; omega]
  rw [show (0 : Int) ⊔ ((td.tileBounds i j).y - (td.tileBounds (i + 1) j).y) = 0 by
    rw [hyeq]; omega]
  rw [inset_zero (by rw [heq2]; exact le_of_lt hsx2) (by rw [heq2]; exact le_of_lt hsy2)]

/-- Stepping the iterator from the last cell of a row that is not the last
row wraps to the first cell of the next row. -/
theorem coverage_step_wrap (td : TilingData) (tiles : Int → Int → Option Nat)
    (hwf : td.WF) {j : Int} (hj0 : 0 ≤ j) (hjn : j + 1 < td.numTilesY) :
    coverageStep (coverageCell td tiles (td.numTilesX - 1) j) =
      coverageCell td tiles 0 (j + 1) := by
  have hb := hwf.1
  have hmY := hwf.2.2.1
  have hH := hwf.2.2.2.2
  have hnx1 : 1 ≤ td.numTilesX := numTilesDim_pos hwf.2.1 hwf.2.2.2.1
  have htr := totalRect_fields td hwf
  have hgeom := coverage_geom td hwf (le_refl (0 : Int)) (by omega) (by omega) hjn
  obtain ⟨heq1, hsx1, hsy1, hpx1, hpy1, hbx1, hby1⟩ :=
    tileBounds_spec td hwf (show (0:Int) ≤ td.numTilesX - 1 by omega)
      (by omega) hj0 (by omega)
  obtain ⟨heq2, hsx2, hsy2, hpx2, hpy2, hbx2, hby2⟩ :=
    tileBounds_spec td hwf (le_refl (0 : Int)) (by omega) (by omega) hjn
  have hjn2 : j + 1 < numTilesDim td.maxTextureH td.totalH td.border := hjn
  have hadjY : (td.tileBounds (td.numTilesX - 1) j).bottom =
      (td.tileBounds 0 (j + 1)).y := by
    rw [heq1, heq2]
    simp only [GfxRect.bottom]
    exact grid_step hb hmY hH j hj0 (by omega)
  have hx0 : (td.tileBounds 0 (j + 1)).x = 0 := by
    rw [heq2]
    exact tilePosDim_zero (m := td.maxTextureW) (b := td.border)
  simp only [coverageStep, coverageAdvance, coverageCell]
  rw [if_neg (show ¬ j > td.numTilesY - 1 by omega)]
  rw [if_pos (show td.numTilesX - 1 + 1 > td.numTilesX - 1 by omega)]
  rw [if_neg (show ¬ j + 1 > td.numTilesY - 1 by omega)]
  rw [hgeom]
  rw [if_neg (show ¬ (decide (td.numTilesX - 1 < 0) = true) by simp; omega)]
  simp only [eq_self_iff_true, if_true]
  rw [show td.totalRect.x = 0 from by rw [htr]]
  rw [show (0 : Int) ⊔ (0 - (td.tileBounds 0 (j + 1)).x) = 0 by rw [hx0]; omega]
  rw [show (0 : Int) ⊔ ((td.tileBounds (td.numTilesX - 1) j).bottom -
      (td.tileBounds 0 (j + 1)).y) = 0 by rw [hadjY]; omega]
  rw [inset_zero (by rw [heq2]; exact le_of_lt hsx2) (by rw [heq2]; exact le_of_lt hsy2)]

/-- Constructing the iterator over the full content rectangle at the
tiling's own scale puts it on cell `(0, 0)` with the full index range. -/
theorem coverage_init_first (td : TilingData) (tiles : Int → Int → Option Nat)
    (q : ℚ) (hq : 0 < q) (hwf : td.WF) :
    coverageInit td tiles q q td.totalRect = coverageCell td tiles 0 0 := by
  have hb := hwf.1
  have hmX := hwf.2.1
  have hmY := hwf.2.2.1
  have hW := hwf.2.2.2.1
  have hH := hwf.2.2.2.2
  have hnx1 : 1 ≤ td.numTilesX := numTilesDim_pos hmX hW
  have hny1 : 1 ≤ td.numTilesY := numTilesDim_pos hmY hH
  have htr := totalRect_fields td hwf
  have hempty : ¬ td.totalRect.isEmpty := by
    rw [htr]
    simp only [GfxRect.isEmpty, not_or]
    omega
  have hscale : scaleToEnclosingRect td.totalRect 1 = td.totalRect :=
    scaleToEnclosingRect_one _ (by rw [htr]; exact le_of_lt hW)
      (by rw [htr]; exact le_of_lt hH)
  have hinter : intersectRects td.totalRect td.totalRect = td.totalRect :=
    intersectRects_of_contained hempty le_rfl le_rfl le_rfl le_rfl
  have hgeom := coverage_geom td hwf (le_refl (0 : Int)) (by omega)
    (le_refl (0 : Int)) (by omega)
  simp only [coverageInit]
  rw [div_self (ne_of_gt hq), if_neg hempty, hscale, hinter, if_neg hempty]
  rw [show td.totalRect.x = 0 from by rw [htr]]
  rw [show td.totalRect.y = 0 from by rw [htr]]
  rw [show td.totalRect.right = td.totalW from by rw [htr]; simp [GfxRect.right]]
  rw [show td.totalRect.bottom = td.totalH from by rw [htr]; simp [GfxRect.bottom]]
  rw [show td.tileXIndexFromSrcCoord 0 = 0 from grid_index_zero hb hmX hW]
  rw [show td.tileYIndexFromSrcCoord 0 = 0 from grid_index_zero hb hmY hH]
  rw [show td.tileXIndexFromSrcCoord (td.totalW - 1) = td.numTilesX - 1 from
    grid_index_last hb hmX hW]
  rw [show td.tileYIndexFromSrcCoord (td.totalH - 1) = td.numTilesY - 1 from
    grid_index_last hb hmY hH]
  simp only [coverageStep, coverageAdvance, coverageCell]
  rw [if_neg (show ¬ (0 : Int) > td.numTilesY - 1 by omega)]
  rw [if_neg (show ¬ (0 : Int) - 1 + 1 > td.numTilesX - 1 by omega)]
  rw [show (0 : Int) - 1 + 1 = 0 by omega]
  rw [hgeom]
  rw [if_pos (show decide ((0 : Int) - 1 < 0) = true by decide)]

/-- The iterator state after `j*num_x + i` steps is exactly cell `(i, j)`:
row-major traversal. -/
theorem coverage_state (td : TilingData) (tiles : Int → Int → Option Nat)
    (q : ℚ) (hq : 0 < q) (hwf : td.WF) :
    ∀ k : Nat, ∀ i j : Int, 0 ≤ i → i < td.numTilesX → 0 ≤ j → j < td.numTilesY →
      (j * td.numTilesX + i).toNat = k →
      coverageStep^[k] (coverageInit td tiles q q td.totalRect) =
        coverageCell td tiles i j := by
  intro k
  induction k with
  | zero =>
    intro i j hi0 hin hj0 hjn hk
    have hnn : 0 ≤ j * td.numTilesX := mul_nonneg hj0 (by omega)
    have hj_zero : j = 0 ∧ i = 0 := by
      constructor
      · by_contra hj1
        have h1 : 1 ≤ j := by omega
        have h2 : td.numTilesX ≤ j * td.numTilesX :=
          le_mul_of_one_le_left (by omega) h1
        omega
      · omega
    obtain ⟨rfl, rfl⟩ := hj_zero
    rw [Function.iterate_zero_apply]
    exact coverage_init_first td tiles q hq hwf
  | succ k ih =>
    intro i j hi0 hin hj0 hjn hk
    rw [Function.iterate_succ_apply']
    have hnn : 0 ≤ j * td.numTilesX := mul_nonneg hj0 (by omega)
    by_cases hi1 : 1 ≤ i
    · have hpred := ih (i - 1) j (by omega) (by omega) hj0 hjn (by omega)
      rw [hpred]
      have hstep := coverage_step_next td tiles hwf (i := i - 1) (j := j)
        (by omega) (by omega) hj0 hjn
      rw [show i - 1 + 1 = i from by omega] at hstep
      exact hstep
    · have hi_eq : i = 0 := by omega
      have hj1 : 1 ≤ j := by
        by_contra hj1
        have hjz : j = 0 := by omega
        rw [hjz] at hk
        simp at hk
        omega
      have hexp : (j - 1) * td.numTilesX = j * td.numTilesX - td.numTilesX := by
        ring
      have hnn2 : 0 ≤ (j - 1) * td.numTilesX := mul_nonneg (by omega) (by omega)
      have hpred := ih (td.numTilesX - 1) (j - 1) (by omega) (by omega)
        (by omega) (by omega) (by omega)
      rw [hpred]
      have hstep := coverage_step_wrap td tiles hwf (j := j - 1) (by omega) (by omega)
      rw [show j - 1 + 1 = j from by omega] at hstep
      rw [hi_eq]
      exact hstep

/-- **C7**: `ComputeExpansionDelta` solves the quadratic
`(w+2d)(h+2d) = target_area` when both axes have two free edges (whenever
a non-negative integer delta solves it exactly, that delta is returned),
and when the quadratic coefficient `a = num_x_edges * num_y_edges` is zero
it returns the direct linear solution
`d = (target_area - w*h) / (num_y_edges*w + num_x_edges*h)`
(integer division truncating toward zero, as in the source). -/
theorem computeExpansionDelta_solves_quadratic (nx ny w h target d0 : Int) :
    (0 ≤ w → 0 ≤ h → 0 ≤ d0 → (w + 2 * d0) * (h + 2 * d0) = target →
      computeExpansionDelta 2 2 w h target = d0) ∧
    (nx * ny = 0 →
      computeExpansionDelta nx ny w h target =
        Int.tdiv (target - w * h) (ny * w + nx * h)) := by
  constructor
  · intro hw hh hd ht
    unfold computeExpansionDelta
    simp only
    rw [if_neg (by norm_num : ¬(2 * 2 : Int) = 0)]
    rw [show ((2:Int) * w + 2 * h) * (2 * w + 2 * h) - 4 * (2 * 2) * (w * h - target)
        = (2 * w + 2 * h + 8 * d0) * (2 * w + 2 * h + 8 * d0) from by
      linear_combination (-16 : Int) * ht]
    rw [Int.sqrt_eq, Int.natAbs_of_nonneg (by omega)]
    rw [show -(2 * w + 2 * h) + (2 * w + 2 * h + 8 * d0) = 8 * d0 by ring]
    rw [show (2 : Int) * (2 * 2) = 8 by norm_num]
    exact Int.mul_tdiv_cancel_left d0 (by norm_num)
  · intro hz
    unfold computeExpansionDelta
    simp only
    rw [if_pos ((mul_comm ny nx).trans hz)]
    rw [show -(w * h - target) = target - w * h by ring]

/-- Witness for C7 at the concrete inputs `(w,h,target,d) = (2,2,16,1)`
(quadratic case, since `(2+2)*(2+2) = 16`) and
`(nx,ny,w,h,target) = (0,2,3,5,21)` (linear case). -/
theorem computeExpansionDelta_solves_quadratic_witness :
    computeExpansionDelta 2 2 2 2 16 = 1 ∧
    computeExpansionDelta 0 2 3 5 21 = Int.tdiv (21 - 3 * 5) (2 * 3 + 0 * 5) := by
  constructor
  · exact (computeExpansionDelta_solves_quadratic 0 0 2 2 16 1).1
      (by norm_num) (by norm_num) (by norm_num) (by norm_num)
  · exact (computeExpansionDelta_solves_quadratic 0 2 3 5 21 0).2 (by norm_num)

/-- **C6**: with a non-empty starting rectangle, a second call of
`ExpandRectEquallyToAreaBoundedBy` on the identical
`(starting rect, target area, bounding rect)` triple and the cache left by
the first call returns the memoized result, which equals the first call's
return value; and the single-entry cache is overwritten with the new triple
and result whenever any of the three inputs differs from what it stores. -/
theorem expandRect_memo_idempotent (startR bounds : GfxRect) (target : Int)
    (c0 : RectExpansionCache) (hne : ¬ startR.isEmpty) :
    (expandRectEquallyToAreaBoundedBy startR target bounds
        (expandRectEquallyToAreaBoundedBy startR target bounds (some c0)).2
      = expandRectEquallyToAreaBoundedBy startR target bounds (some c0)) ∧
    (∀ c1, (expandRectEquallyToAreaBoundedBy startR target bounds (some c0)).2 = some c1 →
      c1.previousResult = (expandRectEquallyToAreaBoundedBy startR target bounds (some c0)).1 ∧
      c1.previousStart = startR ∧ c1.previousBounds = bounds ∧ c1.previousTarget = target) ∧
    (¬(c0.previousStart = startR ∧ c0.previousBounds = bounds ∧ c0.previousTarget = target) →
      (expandRectEquallyToAreaBoundedBy startR target bounds (some c0)).2 =
        some ⟨startR, bounds, target, expandRectCore startR target bounds⟩) := by
  by_cases hit : c0.previousStart = startR ∧ c0.previousBounds = bounds ∧
      c0.previousTarget = target
  · have heval : expandRectEquallyToAreaBoundedBy startR target bounds (some c0)
        = (c0.previousResult, some c0) := by
      simp only [expandRectEquallyToAreaBoundedBy, if_neg hne, if_pos hit]
    refine ⟨?_, ?_, fun hmiss => absurd hit hmiss⟩
    · rw [heval]
      exact heval
    · intro c1 hc1
      rw [heval] at hc1
      obtain rfl := Option.some.inj hc1
      rw [heval]
      exact ⟨rfl, hit.1, hit.2.1, hit.2.2⟩
  · have heval : expandRectEquallyToAreaBoundedBy startR target bounds (some c0)
        = (expandRectCore startR target bounds,
            some ⟨startR, bounds, target, expandRectCore startR target bounds⟩) := by
      simp only [expandRectEquallyToAreaBoundedBy, if_neg hne, if_neg hit]
    refine ⟨?_, ?_, fun _ => by rw [heval]⟩
    · rw [heval]
      simp only [expandRectEquallyToAreaBoundedBy, if_neg hne, and_self, if_true]
    · intro c1 hc1
      rw [heval] at hc1
      obtain rfl := Option.some.inj hc1
      rw [heval]
      exact ⟨rfl, rfl, rfl, rfl⟩

/-- Witness for C6: starting rect `(0,0,2,2)`, target `9`, bounding rect
`(0,0,4,4)` and the default-constructed cache. -/
theorem expandRect_memo_idempotent_witness :
    ¬ (⟨0, 0, 2, 2⟩ : GfxRect).isEmpty ∧
    ((expandRectEquallyToAreaBoundedBy ⟨0, 0, 2, 2⟩ 9 ⟨0, 0, 4, 4⟩
        (expandRectEquallyToAreaBoundedBy ⟨0, 0, 2, 2⟩ 9 ⟨0, 0, 4, 4⟩
          (some RectExpansionCache.initial)).2
      = expandRectEquallyToAreaBoundedBy ⟨0, 0, 2, 2⟩ 9 ⟨0, 0, 4, 4⟩
          (some RectExpansionCache.initial)) ∧
    (∀ c1, (expandRectEquallyToAreaBoundedBy ⟨0, 0, 2, 2⟩ 9 ⟨0, 0, 4, 4⟩
          (some RectExpansionCache.initial)).2 = some c1 →
      c1.previousResult = (expandRectEquallyToAreaBoundedBy ⟨0, 0, 2, 2⟩ 9 ⟨0, 0, 4, 4⟩
          (some RectExpansionCache.initial)).1 ∧
      c1.previousStart = ⟨0, 0, 2, 2⟩ ∧ c1.previousBounds = ⟨0, 0, 4, 4⟩ ∧
      c1.previousTarget = 9) ∧
    (¬(RectExpansionCache.initial.previousStart = ⟨0, 0, 2, 2⟩ ∧
        RectExpansionCache.initial.previousBounds = ⟨0, 0, 4, 4⟩ ∧
        RectExpansionCache.initial.previousTarget = 9) →
      (expandRectEquallyToAreaBoundedBy ⟨0, 0, 2, 2⟩ 9 ⟨0, 0, 4, 4⟩
          (some RectExpansionCache.initial)).2 =
        some ⟨⟨0, 0, 2, 2⟩, ⟨0, 0, 4, 4⟩, 9,
          expandRectCore ⟨0, 0, 2, 2⟩ 9 ⟨0, 0, 4, 4⟩⟩)) :=
  ⟨by decide, expandRect_memo_idempotent ⟨0, 0, 2, 2⟩ ⟨0, 0, 4, 4⟩ 9
    RectExpansionCache.initial (by decide)⟩

/-- **C3**: iterating a coverage iterator over the full content rectangle
at the tiling's own scale visits every grid cell exactly once in
row-major order, each step's geometry rectangle being exactly that cell's
tile bounds; the union of the geometry rectangles is exactly the content
rectangle, no two of them overlap, and adjacent steps leave no gap
(within a row the next cell starts at the previous right edge; at a row
start the cell starts at the destination left edge and at the previous
row's bottom edge). -/
theorem coverage_exact_partition (td : TilingData) (tiles : Int → Int → Option Nat)
    (q : ℚ) (hq : 0 < q) (hwf : td.WF) :
    (∀ i j : Int, 0 ≤ i → i < td.numTilesX → 0 ≤ j → j < td.numTilesY →
      coverageStep^[(j * td.numTilesX + i).toNat]
          (coverageInit td tiles q q td.totalRect) = coverageCell td tiles i j ∧
      (coverageCell td tiles i j).currentGeometryRect = td.tileBounds i j ∧
      (coverageCell td tiles i j).currentTile = tiles i j) ∧
    (∀ p : Int × Int, p ∈ td.totalRect.toSet ↔
      ∃ i j : Int, 0 ≤ i ∧ i < td.numTilesX ∧ 0 ≤ j ∧ j < td.numTilesY ∧
        p ∈ (td.tileBounds i j).toSet) ∧
    (∀ i j i2 j2 : Int, 0 ≤ i → i < td.numTilesX → 0 ≤ j → j < td.numTilesY →
      0 ≤ i2 → i2 < td.numTilesX → 0 ≤ j2 → j2 < td.numTilesY → (i, j) ≠ (i2, j2) →
      (td.tileBounds i j).toSet ∩ (td.tileBounds i2 j2).toSet = ∅) ∧
    (∀ i j : Int, 0 ≤ i → i + 1 < td.numTilesX → 0 ≤ j → j < td.numTilesY →
      (td.tileBounds (i + 1) j).x = (td.tileBounds i j).right ∧
      (td.tileBounds (i + 1) j).y = (td.tileBounds i j).y) ∧
    (∀ j : Int, 0 ≤ j → j + 1 < td.numTilesY →
      (td.tileBounds 0 (j + 1)).x = td.totalRect.x ∧
      (td.tileBounds 0 (j + 1)).y = (td.tileBounds (td.numTilesX - 1) j).bottom) := by
  obtain ⟨hb, hmX, hmY, hW, hH⟩ := hwf
  have hwf2 : td.WF := ⟨hb, hmX, hmY, hW, hH⟩
  have htr := totalRect_fields td hwf2
  refine ⟨?_, ?_, ?_, ?_, ?_⟩
  · intro i j hi0 hin hj0 hjn
    exact ⟨coverage_state td tiles q hq hwf2 _ i j hi0 hin hj0 hjn rfl, rfl, rfl⟩
  · intro p
    constructor
    · intro hp
      have hx1 : 0 ≤ p.1 ∧ p.1 < td.totalW ∧ 0 ≤ p.2 ∧ p.2 < td.totalH := by
        rw [htr, mem_toSet] at hp
        simpa using hp
      obtain ⟨hx0, hxW, hy0, hyH⟩ := hx1
      obtain ⟨hi0, hin, hlo, hhi⟩ := grid_index_spec hb hmX hW p.1 hx0 hxW
      obtain ⟨hj0, hjn, hlo2, hhi2⟩ := grid_index_spec hb hmY hH p.2 hy0 hyH
      refine ⟨tileIndexDim td.maxTextureW td.totalW td.border p.1,
        tileIndexDim td.maxTextureH td.totalH td.border p.2,
        hi0, hin, hj0, hjn, ?_⟩
      obtain ⟨heq, hsx, hsy, hpx, hpy, hbx, hby2⟩ :=
        tileBounds_spec td hwf2 hi0 hin hj0 hjn
      rw [heq, mem_toSet]
      exact ⟨hlo, hhi, hlo2, hhi2⟩
    · rintro ⟨i, j, hi0, hin, hj0, hjn, hp⟩
      obtain ⟨heq, hsx, hsy, hpx, hpy, hbx, hby2⟩ :=
        tileBounds_spec td hwf2 hi0 hin hj0 hjn
      rw [heq, mem_toSet] at hp
      rw [htr, mem_toSet]
      simp only at hp ⊢
      omega
  · intro i j i2 j2 hi0 hin hj0 hjn hi20 hin2 hj20 hjn2 hne
    rw [Set.eq_empty_iff_forall_not_mem]
    rintro p ⟨h1, h2⟩
    obtain ⟨heq, hsx, hsy, hpx, hpy, hbx, hby2⟩ :=
      tileBounds_spec td hwf2 hi0 hin hj0 hjn
    obtain ⟨heq2, hsx2, hsy2, hpx2, hpy2, hbx2, hby22⟩ :=
      tileBounds_spec td hwf2 hi20 hin2 hj20 hjn2
    rw [heq, mem_toSet] at h1
    rw [heq2, mem_toSet] at h2
    simp only at h1 h2
    have e1 : tileIndexDim td.maxTextureW td.totalW td.border p.1 = i :=
      grid_index_unique hb hmX hW i p.1 hi0 hin h1.1 h1.2.1
    have e2 : tileIndexDim td.maxTextureW td.totalW td.border p.1 = i2 :=
      grid_index_unique hb hmX hW i2 p.1 hi20 hin2 h2.1 h2.2.1
    have e3 : tileIndexDim td.maxTextureH td.totalH td.border p.2 = j :=
      grid_index_unique hb hmY hH j p.2 hj0 hjn h1.2.2.1 h1.2.2.2
    have e4 : tileIndexDim td.maxTextureH td.totalH td.border p.2 = j2 :=
      grid_index_unique hb hmY hH j2 p.2 hj20 hjn2 h2.2.2.1 h2.2.2.2
    apply hne
    rw [← e1, ← e3, e2, e4]
  · intro i j hi0 hin hj0 hjn
    have hin2 : i + 1 < numTilesDim td.maxTextureW td.totalW td.border := hin
    obtain ⟨heq, hsx, hsy, hpx, hpy, hbx, hby2⟩ :=
      tileBounds_spec td hwf2 hi0 (by omega) hj0 hjn
    obtain ⟨heq2, hsx2, hsy2, hpx2, hpy2, hbx2, hby22⟩ :=
      tileBounds_spec td hwf2 (by omega : (0:Int) ≤ i + 1) hin hj0 hjn
    constructor
    · rw [heq, heq2]
      simp only [GfxRect.right]
      exact (grid_step hb hmX hW i hi0 (by omega)).symm
    · rw [heq, heq2]
  · intro j hj0 hjn
    have hjn2 : j + 1 < numTilesDim td.maxTextureH td.totalH td.border := hjn
    have hnx1 : 1 ≤ td.numTilesX := numTilesDim_pos hmX hW
    obtain ⟨heq1, hsx1, hsy1, hpx1, hpy1, hbx1, hby1⟩ :=
      tileBounds_spec td hwf2 (show (0:Int) ≤ td.numTilesX - 1 by omega)
        (by omega) hj0 (by omega)
    obtain ⟨heq2, hsx2, hsy2, hpx2, hpy2, hbx2, hby22⟩ :=
      tileBounds_spec td hwf2 (le_refl (0 : Int)) (by omega) (by omega) hjn
    constructor
    · rw [heq2, htr]
      exact tilePosDim_zero (m := td.maxTextureW) (b := td.border)
    · rw [heq1, heq2]
      simp only [GfxRect.bottom]
      exact (grid_step hb hmY hH j hj0 (by omega)).symm

theorem coverage_exact_partition_witness :
    (0 : ℚ) < 1 ∧ TilingData.WF ⟨4, 4, 10, 10, 1⟩ ∧
    coverageStep^[5] (coverageInit ⟨4, 4, 10, 10, 1⟩ (fun _ _ => none) 1 1
        (TilingData.totalRect ⟨4, 4, 10, 10, 1⟩)) =
      coverageCell ⟨4, 4, 10, 10, 1⟩ (fun _ _ => none) 1 1 :=
  ⟨by norm_num, ⟨by decide, by decide, by decide, by decide, by decide⟩,
    ((coverage_exact_partition ⟨4, 4, 10, 10, 1⟩ (fun _ _ => none) 1 (by norm_num)
        ⟨by decide, by decide, by decide, by decide, by decide⟩).1 1 1
      (by decide) (by decide) (by decide) (by decide)).1⟩

/-- **C10**: a coverage iterator built from an empty destination
rectangle, or whose scaled content-space footprint misses the content
rectangle, is already past its last row: the current tile is the absent
sentinel and advancing any number of times leaves the iterator
unchanged, producing no cells. -/
theorem coverage_degenerate (td : TilingData) (tiles : Int → Int → Option Nat)
    (contentsScale destScale : ℚ) (destRect : GfxRect)
    (h : destRect.isEmpty ∨
      (intersectRects (scaleToEnclosingRect destRect (contentsScale / destScale))
        td.totalRect).isEmpty) :
    (coverageInit td tiles contentsScale destScale destRect).currentTile = none ∧
    (coverageInit td tiles contentsScale destScale destRect).bottom <
      (coverageInit td tiles contentsScale destScale destRect).tileJ ∧
    ∀ n : Nat, coverageStep^[n]
        (coverageInit td tiles contentsScale destScale destRect) =
      coverageInit td tiles contentsScale destScale destRect := by
  simp only [coverageInit]
  by_cases h0 : destRect.isEmpty
  · rw [if_pos h0]
    refine ⟨rfl, ?_, fun n => Function.iterate_fixed (coverageStep_fixed ?_) n⟩ <;>
      exact (by decide : (-1 : Int) < 0)
  · rw [if_neg h0]
    rcases h with h | h
    · exact absurd h h0
    · rw [if_pos h]
      refine ⟨rfl, ?_, fun n => Function.iterate_fixed (coverageStep_fixed ?_) n⟩ <;>
        exact (by decide : (-1 : Int) < 0)

theorem coverage_degenerate_witness :
    ((⟨0, 0, 0, 0⟩ : GfxRect).isEmpty ∨
      (intersectRects (scaleToEnclosingRect ⟨0, 0, 0, 0⟩ ((1 : ℚ) / 1))
        (TilingData.totalRect ⟨4, 4, 10, 10, 1⟩)).isEmpty) ∧
    ((coverageInit ⟨4, 4, 10, 10, 1⟩ (fun _ _ => none) 1 1
        ⟨0, 0, 0, 0⟩).currentTile = none ∧
      (coverageInit ⟨4, 4, 10, 10, 1⟩ (fun _ _ => none) 1 1
        ⟨0, 0, 0, 0⟩).bottom <
        (coverageInit ⟨4, 4, 10, 10, 1⟩ (fun _ _ => none) 1 1
          ⟨0, 0, 0, 0⟩).tileJ ∧
      ∀ n : Nat, coverageStep^[n]
          (coverageInit ⟨4, 4, 10, 10, 1⟩ (fun _ _ => none) 1 1 ⟨0, 0, 0, 0⟩) =
        coverageInit ⟨4, 4, 10, 10, 1⟩ (fun _ _ => none) 1 1 ⟨0, 0, 0, 0⟩) :=
  ⟨Or.inl (by decide),
    coverage_degenerate ⟨4, 4, 10, 10, 1⟩ (fun _ _ => none) 1 1 ⟨0, 0, 0, 0⟩
      (Or.inl (by decide))⟩

theorem tileIndexDim_nonneg {m W b x : Int} : 0 ≤ tileIndexDim m W b x := by
  unfold tileIndexDim
  split
  · exact le_rfl
  · next h => exact le_min (le_max_right _ _) (by omega)

theorem mem_window_of_tdiv {a k : Int} (ha : 0 ≤ a) (hk : a.tdiv 2 = k) :
    a = 2 * k ∨ a = 2 * k + 1 := by
  rw [Int.tdiv_eq_ediv ha (by norm_num)] at hk
  omega

/-- A true `IsEmpty` answer really means every slot of the bundle is
unoccupied: any cell with non-negative indices mapping to the bundle's
key is one of its four window cells. -/
theorem bundleEmpty_spec (tiles : WhichTree → Int → Int → Option Nat) (k : Int × Int)
    (h : bundleEmpty tiles k = true) (t : WhichTree) (a b : Int)
    (ha : 0 ≤ a) (hb : 0 ≤ b) (hk : tileBundleIndex a b = k) :
    tiles t a b = none := by
  have h1 : a.tdiv 2 = k.1 := congrArg Prod.fst hk
  have h2 : b.tdiv 2 = k.2 := congrArg Prod.snd hk
  simp only [bundleEmpty, List.all_cons, List.all_nil, Bool.and_true,
    Bool.and_eq_true, Option.isNone_iff_eq_none, add_zero] at h
  rcases mem_window_of_tdiv ha h1 with h3 | h3 <;>
    rcases mem_window_of_tdiv hb h2 with h4 | h4 <;>
    subst h3 <;> subst h4 <;> cases t <;> tauto

/-- Structural facts about one `CreateTile` call: the bundle key is
inserted, at most the addressed slot changes, and the other fields are
untouched. -/
theorem createTileCore_shape (st : TilingState) (tree : WhichTree) (i j : Int)
    (o : TileOracle) :
    ∃ v : Option Nat,
      (createTileCore st tree i j o).1.keys = insert (tileBundleIndex i j) st.keys ∧
      ((createTileCore st tree i j o).1.tiles = updateTiles st.tiles tree i j v ∨
        (createTileCore st tree i j o).1.tiles = st.tiles) ∧
      (createTileCore st tree i j o).1.curTree = st.curTree ∧
      (createTileCore st tree i j o).1.live = st.live ∧
      (createTileCore st tree i j o).1.td = st.td ∧
      (createTileCore st tree i j o).1.contentsScale = st.contentsScale := by
  simp only [createTileCore]
  split
  · split
    · split
      · exact ⟨_, rfl, Or.inl rfl, rfl, rfl, rfl, rfl⟩
      · exact ⟨none, rfl, Or.inr rfl, rfl, rfl, rfl, rfl⟩
    · exact ⟨_, rfl, Or.inl rfl, rfl, rfl, rfl, rfl⟩
  · split
    · exact ⟨_, rfl, Or.inl rfl, rfl, rfl, rfl, rfl⟩
    · exact ⟨none, rfl, Or.inr rfl, rfl, rfl, rfl, rfl⟩

theorem bundleInv_createTile {st : TilingState} (h : bundleInv st) (tree : WhichTree)
    {i j : Int} (hi : 0 ≤ i) (hj : 0 ≤ j) (o : TileOracle) :
    bundleInv (createTile st tree i j o) := by
  obtain ⟨v, hkeys, htiles, _⟩ := createTileCore_shape st tree i j o
  intro t a b hne
  simp only [createTile] at hne ⊢
  rw [hkeys]
  rcases htiles with ht | ht
  · rw [ht] at hne
    unfold updateTiles at hne
    by_cases hcase : t = tree ∧ a = i ∧ b = j
    · obtain ⟨rfl, rfl, rfl⟩ := hcase
      exact ⟨hi, hj, Finset.mem_insert_self _ _⟩
    · rw [if_neg hcase] at hne
      obtain ⟨h1, h2, h3⟩ := h t a b hne
      exact ⟨h1, h2, Finset.mem_insert_of_mem h3⟩
  · rw [ht] at hne
    obtain ⟨h1, h2, h3⟩ := h t a b hne
    exact ⟨h1, h2, Finset.mem_insert_of_mem h3⟩

theorem bundleInv_removeTile {st : TilingState} (h : bundleInv st)
    (tree : WhichTree) (i j : Int) : bundleInv (removeTile st tree i j) := by
  intro t a b hne
  simp only [removeTile, removeTileCore] at hne ⊢
  by_cases hk : tileBundleIndex i j ∈ st.keys
  · rw [if_pos hk] at hne ⊢
    dsimp only at hne ⊢
    unfold updateTiles at hne
    by_cases hcase : t = tree ∧ a = i ∧ b = j
    · rw [if_pos hcase] at hne
      exact absurd rfl hne
    · rw [if_neg hcase] at hne
      exact h t a b hne
  · rw [if_neg hk] at hne ⊢
    exact h t a b hne

theorem bundleInv_removeBundleIfEmpty {st : TilingState} (h : bundleInv st)
    (i j : Int) : bundleInv (removeBundleIfEmpty st i j) := by
  intro t a b hne
  simp only [removeBundleIfEmpty] at hne ⊢
  by_cases hc : tileBundleIndex i j ∈ st.keys ∧
      bundleEmpty st.tiles (tileBundleIndex i j) = true
  · rw [if_pos hc] at hne ⊢
    obtain ⟨h1, h2, h3⟩ := h t a b hne
    refine ⟨h1, h2, Finset.mem_erase.mpr ⟨?_, h3⟩⟩
    intro heq
    exact hne (bundleEmpty_spec st.tiles _ hc.2 t a b h1 h2 heq)
  · rw [if_neg hc] at hne ⊢
    exact h t a b hne

theorem foldl_preserve {β α : Type} {P : β → Prop} {f : β → α → β} :
    ∀ (L : List α), (∀ s a, a ∈ L → P s → P (f s a)) → ∀ s, P s → P (L.foldl f s)
  | [], _, _, hs => hs
  | a :: L, hf, s, hs =>
      foldl_preserve L (fun s2 c hc => hf s2 c (List.mem_cons_of_mem a hc))
        (f s a) (hf s a (List.mem_cons_self a L) hs)

theorem mem_cellsOf {q : Option (Int × Int × Int × Int)} {c : Int × Int} :
    c ∈ cellsOf q ↔ inIndexRange q c = true := by
  cases q with
  | none => simp [cellsOf, inIndexRange]
  | some r =>
    obtain ⟨l, t, rr, bb⟩ := r
    constructor
    · intro h
      simp only [cellsOf] at h
      rw [List.mem_flatMap] at h
      obtain ⟨dj, hdj, h⟩ := h
      rw [List.mem_map] at h
      obtain ⟨di, hdi, rfl⟩ := h
      rw [List.mem_range] at hdj hdi
      simp only [inIndexRange, decide_eq_true_eq]
      omega
    · intro h
      simp only [inIndexRange, decide_eq_true_eq] at h
      obtain ⟨h1, h2, h3, h4⟩ := h
      simp only [cellsOf]
      rw [List.mem_flatMap]
      refine ⟨(c.2 - t).toNat, ?_, ?_⟩
      · rw [List.mem_range]
        omega
      · rw [List.mem_map]
        refine ⟨(c.1 - l).toNat, ?_, ?_⟩
        · rw [List.mem_range]
          omega
        · obtain ⟨c1, c2⟩ := c
          dsimp only at h1 h2 h3 h4 ⊢
          rw [Prod.mk.injEq]
          constructor <;> omega

theorem cellsOf_indexRange_nonneg {td : TilingData} {r : GfxRect} {c : Int × Int}
    (h : c ∈ cellsOf (indexRange td r)) : 0 ≤ c.1 ∧ 0 ≤ c.2 := by
  rw [mem_cellsOf] at h
  simp only [indexRange] at h
  split at h
  · simp [inIndexRange] at h
  · simp only [inIndexRange, decide_eq_true_eq] at h
    exact ⟨le_trans tileIndexDim_nonneg h.1, le_trans tileIndexDim_nonneg h.2.2.1⟩

theorem diffCells_nonneg {td : TilingData} {A B : GfxRect} {c : Int × Int}
    (h : c ∈ diffCells td A B) : 0 ≤ c.1 ∧ 0 ≤ c.2 :=
  cellsOf_indexRange_nonneg (List.mem_filter.mp h).1

theorem bundleInv_of_fields {s s2 : TilingState} (h : bundleInv s)
    (ht : s2.tiles = s.tiles) (hk : s2.keys = s.keys) : bundleInv s2 := by
  intro t a b hne
  rw [ht] at hne
  rw [hk]
  exact h t a b hne

theorem bundleInv_setLive {st : TilingState} (h : bundleInv st) (r : GfxRect)
    (co : Int → Int → TileOracle) : bundleInv (setLiveTilesRect st r co) := by
  unfold setLiveTilesRect
  split
  · exact h
  · have h1 : bundleInv ((diffCells st.td st.live r).foldl liveRemoveStep st) :=
      foldl_preserve (P := bundleInv) (f := liveRemoveStep)
        (diffCells st.td st.live r)
        (fun s c _ hs =>
          bundleInv_removeBundleIfEmpty
            (bundleInv_removeTile hs s.curTree c.1 c.2) c.1 c.2)
        st h
    split
    · exact bundleInv_of_fields h1 rfl rfl
    · refine bundleInv_of_fields ?_ rfl rfl
      refine foldl_preserve (P := bundleInv) (diffCells st.td r st.live) ?_ _ h1
      intro s c hc hs
      exact bundleInv_createTile hs s.curTree (diffCells_nonneg hc).1
        (diffCells_nonneg hc).2 (co c.1 c.2)

theorem bundleInv_invalidate {st : TilingState} (h : bundleInv st)
    (region : List GfxRect) (co : Int → Int → TileOracle) :
    bundleInv (invalidateOp st region co) := by
  unfold invalidateOp
  dsimp only
  have hfin : bundleInv (region.foldl (fun acc lr =>
        (cellsOf (indexRange st.td
            (intersectRects (scaleToEnclosingRect lr st.contentsScale) st.live))).foldl
          (fun (a : TilingState × List (Int × Int)) c =>
            ((removeTileCore a.1 WhichTree.pending c.1 c.2).1,
              if (removeTileCore a.1 WhichTree.pending c.1 c.2).2 then a.2 ++ [c]
              else a.2)) acc) (st, [])).1 ∧
      ∀ c ∈ (region.foldl (fun acc lr =>
        (cellsOf (indexRange st.td
            (intersectRects (scaleToEnclosingRect lr st.contentsScale) st.live))).foldl
          (fun (a : TilingState × List (Int × Int)) c =>
            ((removeTileCore a.1 WhichTree.pending c.1 c.2).1,
              if (removeTileCore a.1 WhichTree.pending c.1 c.2).2 then a.2 ++ [c]
              else a.2)) acc) (st, [])).2, 0 ≤ c.1 ∧ 0 ≤ c.2 := by
    refine foldl_preserve (P := fun a : TilingState × List (Int × Int) =>
        bundleInv a.1 ∧ ∀ c ∈ a.2, 0 ≤ c.1 ∧ 0 ≤ c.2) region ?_ (st, [])
      ⟨h, fun c hc => absurd hc (List.not_mem_nil c)⟩
    intro a lr _ ha
    refine foldl_preserve (P := fun a : TilingState × List (Int × Int) =>
        bundleInv a.1 ∧ ∀ c ∈ a.2, 0 ≤ c.1 ∧ 0 ≤ c.2)
      (cellsOf (indexRange st.td
        (intersectRects (scaleToEnclosingRect lr st.contentsScale) st.live))) ?_ a ha
    intro s c hc hs
    refine ⟨bundleInv_removeTile hs.1 WhichTree.pending c.1 c.2, ?_⟩
    intro c2 hc2
    dsimp only at hc2
    split at hc2
    · rcases List.mem_append.mp hc2 with h2 | h2
      · exact hs.2 c2 h2
      · rw [List.mem_singleton.mp h2]
        exact cellsOf_indexRange_nonneg hc
    · exact hs.2 c2 hc2
  refine foldl_preserve (P := bundleInv) _ ?_ _ hfin.1
  intro s c hc hs
  exact bundleInv_createTile hs WhichTree.pending (hfin.2 c hc).1 (hfin.2 c hc).2
    (co c.1 c.2)

theorem bundleInv_setBounds {st : TilingState} (h : bundleInv st)
    (newW newH : Int) (ch : Bool) (tw th : Int) (ex : List GfxRect)
    (co : Int → Int → TileOracle) :
    bundleInv (setLayerBoundsOp st newW newH ch tw th ex co) := by
  unfold setLayerBoundsOp
  split
  · intro t a b hne
    exact absurd rfl hne
  · dsimp only
    refine bundleInv_invalidate
      (bundleInv_of_fields
        (bundleInv_setLive h (intersectRects st.live (mkRect 0 0 newW newH)) co)
        ?_ ?_) ex co <;> rfl

theorem bundleInv_applyOp {st : TilingState} (h : bundleInv st) (op : TilingOp) :
    bundleInv (applyOp st op) := by
  cases op with
  | create tree i j hi hj o => exact bundleInv_createTile h tree hi hj o
  | remove tree i j => exact bundleInv_removeTile h tree i j
  | setLive r co => exact bundleInv_setLive h r co
  | invalidate region co => exact bundleInv_invalidate h region co
  | setBounds nw nh ch tw th ex co => exact bundleInv_setBounds h nw nh ch tw th ex co

/-- Counterexample to **C1** as stated: starting from a fresh tiling,
one `CreateTile` call whose collaborator returns a null tile leaves the
newly inserted bundle key in the collection with every slot of that
bundle unoccupied, so the "key present iff some slot occupied"
equivalence fails. -/
theorem bundle_key_iff_counterexample :
    ¬ bundleKeyIff (runOps ⟨4, 4, 10, 10, 1⟩ 1
      [TilingOp.create WhichTree.pending 0 0 le_rfl le_rfl
        ⟨fun _ => false, fun _ => none⟩]) := by
  intro h
  obtain ⟨t, i, j, hk, hne⟩ := (h (0, 0)).mp (by decide)
  exact hne rfl

/-- **C1** (amended): what every reachable state actually guarantees is
the forward direction — every occupied tile slot has non-negative cell
indices and its owning bundle's key present in the collection.  (The
reverse direction fails: a bundle key can outlive its last tile, see the
counterexample.) -/
theorem bundle_occupied_key_present (td : TilingData) (scale : ℚ)
    (ops : List TilingOp) : bundleInv (runOps td scale ops) := by
  unfold runOps
  exact foldl_preserve (P := bundleInv) (f := applyOp) ops
    (fun s op _ hs => bundleInv_applyOp hs op)
    (initialState td scale) (fun t a b hne => absurd rfl hne)

theorem bundle_occupied_key_present_witness :
    bundleInv (runOps ⟨4, 4, 10, 10, 1⟩ 1
      [TilingOp.create WhichTree.pending 0 0 le_rfl le_rfl
        ⟨fun _ => false, fun r => some 7⟩]) :=
  bundle_occupied_key_present ⟨4, 4, 10, 10, 1⟩ 1
    [TilingOp.create WhichTree.pending 0 0 le_rfl le_rfl
      ⟨fun _ => false, fun r => some 7⟩]

/-- **C8**: `CreateTile` adopts the other tree's existing tile at the
same cell — storing that identical tile and requesting nothing — exactly
when its back-mapped paint rectangle does not intersect the invalidation
region; otherwise a new tile is requested from the collaborator for the
allocation rectangle and stored only when non-null, a null result
storing nothing while the call still completes normally. -/
theorem createTile_adopt_or_request (st : TilingState) (tree : WhichTree)
    (i j : Int) (o : TileOracle) :
    (∀ tl, (if tileBundleIndex i j ∈ st.keys then st.tiles tree.other i j
        else none) = some tl →
      o.invalIntersects (scaleToEnclosingRect (st.td.tileBoundsWithBorder i j)
        (1 / st.contentsScale)) = false →
      createTileCore st tree i j o =
        ({ st with keys := insert (tileBundleIndex i j) st.keys
                   tiles := updateTiles st.tiles tree i j (some tl) }, false)) ∧
    ((if tileBundleIndex i j ∈ st.keys then st.tiles tree.other i j
        else none) = none ∨
      o.invalIntersects (scaleToEnclosingRect (st.td.tileBoundsWithBorder i j)
        (1 / st.contentsScale)) = true →
      (createTileCore st tree i j o).2 = true ∧
      (∀ tl, o.clientTile (GfxRect.mk (st.td.tileBoundsWithBorder i j).x
          (st.td.tileBoundsWithBorder i j).y st.td.maxTextureW st.td.maxTextureH) =
            some tl →
        (createTileCore st tree i j o).1 =
          { st with keys := insert (tileBundleIndex i j) st.keys
                    tiles := updateTiles st.tiles tree i j (some tl) }) ∧
      (o.clientTile (GfxRect.mk (st.td.tileBoundsWithBorder i j).x
          (st.td.tileBoundsWithBorder i j).y st.td.maxTextureW st.td.maxTextureH) =
            none →
        (createTileCore st tree i j o).1 =
          { st with keys := insert (tileBundleIndex i j) st.keys } ∧
        (createTileCore st tree i j o).1.tiles = st.tiles)) := by
  constructor
  · intro tl hc hinv
    simp only [createTileCore, hc, hinv, Bool.false_eq_true, if_false]
  · intro hor
    rcases hor with hc | hinv
    · simp only [createTileCore, hc]
      refine ⟨?_, ?_, ?_⟩
      · split <;> rfl
      · intro tl htl
        simp only [htl]
      · intro htl
        simp only [htl]
        constructor <;> trivial
    · rcases hcand : (if tileBundleIndex i j ∈ st.keys then st.tiles tree.other i j
          else none) with _ | tl
      · simp only [createTileCore, hcand]
        refine ⟨?_, ?_, ?_⟩
        · split <;> rfl
        · intro tl2 htl
          simp only [htl]
        · intro htl
          simp only [htl]
          constructor <;> trivial
      · simp only [createTileCore, hcand, hinv, if_true]
        refine ⟨?_, ?_, ?_⟩
        · split <;> rfl
        · intro tl2 htl
          simp only [htl]
        · intro htl
          simp only [htl]
          constructor <;> trivial

theorem createTile_adopt_or_request_witness :
    ((if tileBundleIndex 0 0 ∈ (initialState ⟨4, 4, 10, 10, 1⟩ 1).keys then
        (initialState ⟨4, 4, 10, 10, 1⟩ 1).tiles WhichTree.pending.other 0 0
      else none) = none) ∧
    (createTileCore (initialState ⟨4, 4, 10, 10, 1⟩ 1) WhichTree.pending 0 0
        ⟨fun _ => false, fun _ => none⟩).2 = true :=
  ⟨by decide, ((createTile_adopt_or_request (initialState ⟨4, 4, 10, 10, 1⟩ 1)
      WhichTree.pending 0 0 ⟨fun _ => false, fun _ => none⟩).2
    (Or.inl (by decide))).1⟩

/-- **C5**: when this tiling lacks a bundle at the cell's key, the twin
is present with identical tile size and holds a bundle at that key,
`CreateBundleForTileAt` stores the twin's identical bundle instance and
requests none from the collaborator; a tile then added to that bundle
through this tiling is visible as the same tree's slot of the same
bundle from the twin tiling. -/
theorem twin_bundle_shared (w : BundleWorld) (i j : Int) (freshId : Nat)
    (tree : WhichTree) (tl : Nat)
    (hsz : w.thisTexW = w.twinTexW ∧ w.thisTexH = w.twinTexH)
    (htwin : tileBundleIndex i j ∈ w.twinKeys) :
    (createBundleForTileAt w i j true freshId).2.1 =
      w.twinBundle (tileBundleIndex i j) ∧
    (createBundleForTileAt w i j true freshId).2.2 = false ∧
    (createBundleForTileAt w i j true freshId).1.thisBundle (tileBundleIndex i j) =
      w.twinBundle (tileBundleIndex i j) ∧
    tileBundleIndex i j ∈ (createBundleForTileAt w i j true freshId).1.thisKeys ∧
    twinTileAt (addTileToBundle (createBundleForTileAt w i j true freshId).1
        ((createBundleForTileAt w i j true freshId).2.1) tree i j tl) tree i j =
      some tl := by
  obtain ⟨h1, h2⟩ := hsz
  simp [createBundleForTileAt, twinTileAt, addTileToBundle, h1, h2, htwin]

theorem twin_bundle_shared_witness :
    (twinDemoWorld.thisTexW = twinDemoWorld.twinTexW ∧
      twinDemoWorld.thisTexH = twinDemoWorld.twinTexH) ∧
    tileBundleIndex 0 0 ∈ twinDemoWorld.twinKeys ∧
    (createBundleForTileAt twinDemoWorld 0 0 true 9).2.2 = false :=
  ⟨⟨rfl, rfl⟩, by decide,
    (twin_bundle_shared twinDemoWorld 0 0 9 WhichTree.pending 5
      ⟨rfl, rfl⟩ (by decide)).2.1⟩

theorem mapClippedRect_translation (T : Transform2D) (hT : T.isTranslation)
    (r : GfxRectF) (hw : 0 ≤ r.w) (hh : 0 ≤ r.h) :
    mapClippedRect T r = ⟨r.x + T.tx, r.y + T.ty, r.w, r.h⟩ := by
  obtain ⟨e1, e2, e3, e4⟩ := hT
  obtain ⟨x, y, w, h⟩ := r
  simp only at hw hh
  simp only [mapClippedRect, boundingBox, mapPoint, e1, e2, e3, e4, one_mul,
    zero_mul, add_zero, zero_add]
  have h1 : x + T.tx ≤ x + w + T.tx := by linarith
  have h2 : y + T.ty ≤ y + h + T.ty := by linarith
  have hminx : min (min (x + T.tx) (x + w + T.tx)) (min (x + w + T.tx) (x + T.tx)) =
      x + T.tx := by
    rw [min_eq_left h1, min_eq_right h1, min_self]
  have hmaxx : max (max (x + T.tx) (x + w + T.tx)) (max (x + w + T.tx) (x + T.tx)) =
      x + w + T.tx := by
    rw [max_eq_right h1, max_eq_left h1, max_self]
  have hmny : min (min (y + T.ty) (y + T.ty)) (min (y + h + T.ty) (y + h + T.ty)) =
      y + T.ty := by
    rw [min_self, min_self, min_eq_left h2]
  have hmxy : max (max (y + T.ty) (y + T.ty)) (max (y + h + T.ty) (y + h + T.ty)) =
      y + h + T.ty := by
    rw [max_self, max_self, max_eq_right h2]
  rw [GfxRectF.mk.injEq]
  refine ⟨hminx, hmny, ?_, ?_⟩
  · rw [hmaxx, hminx]
    ring
  · rw [hmxy, hmny]
    ring

/-- **C9**: for a bundle's grid bounds, when both the last and the
current screen transforms are pure 2-D translations, the screen
rectangles of the translation-only fast path (uniform scale plus the
transform's translation offset) equal what the general path computes by
mapping the scaled bounds through the full transform, so any priority
computed from the two screen rectangles agrees between the paths. -/
theorem translation_fast_path (td : TilingData) (bx by2 : Int)
    (Tl Tc : Transform2D) (sl sc : ℚ) (hsl : 0 ≤ sl) (hsc : 0 ≤ sc)
    (htl : Tl.isTranslation) (htc : Tc.isTranslation) :
    translationScreenRect Tc ((td.tileBounds bx by2).toF) sc =
      mapClippedRect Tc (scaleRectF ((td.tileBounds bx by2).toF) sc) ∧
    translationScreenRect Tl ((td.tileBounds bx by2).toF) sl =
      mapClippedRect Tl (scaleRectF ((td.tileBounds bx by2).toF) sl) ∧
    ∀ {α : Type} (prio : GfxRectF → GfxRectF → α),
      prio (translationScreenRect Tl ((td.tileBounds bx by2).toF) sl)
        (translationScreenRect Tc ((td.tileBounds bx by2).toF) sc) =
      prio (mapClippedRect Tl (scaleRectF ((td.tileBounds bx by2).toF) sl))
        (mapClippedRect Tc (scaleRectF ((td.tileBounds bx by2).toF) sc)) := by
  have hwi : (0 : Int) ≤ (td.tileBounds bx by2).w := le_max_right _ _
  have hhi : (0 : Int) ≤ (td.tileBounds bx by2).h := le_max_right _ _
  have hw : (0 : ℚ) ≤ (((td.tileBounds bx by2).w : Int) : ℚ) := by exact_mod_cast hwi
  have hh : (0 : ℚ) ≤ (((td.tileBounds bx by2).h : Int) : ℚ) := by exact_mod_cast hhi
  have hcur : translationScreenRect Tc ((td.tileBounds bx by2).toF) sc =
      mapClippedRect Tc (scaleRectF ((td.tileBounds bx by2).toF) sc) := by
    rw [mapClippedRect_translation Tc htc (scaleRectF ((td.tileBounds bx by2).toF) sc)
      (mul_nonneg hw hsc) (mul_nonneg hh hsc)]
    rfl
  have hlast : translationScreenRect Tl ((td.tileBounds bx by2).toF) sl =
      mapClippedRect Tl (scaleRectF ((td.tileBounds bx by2).toF) sl) := by
    rw [mapClippedRect_translation Tl htl (scaleRectF ((td.tileBounds bx by2).toF) sl)
      (mul_nonneg hw hsl) (mul_nonneg hh hsl)]
    rfl
  exact ⟨hcur, hlast, fun prio => by rw [hcur, hlast]⟩

theorem translation_fast_path_witness :
    (0 : ℚ) ≤ 2 ∧ (0 : ℚ) ≤ 1 ∧
    Transform2D.isTranslation ⟨1, 0, 0, 1, 3, 4⟩ ∧
    Transform2D.isTranslation ⟨1, 0, 0, 1, 1, 2⟩ ∧
    translationScreenRect ⟨1, 0, 0, 1, 1, 2⟩
        ((TilingData.tileBounds ⟨4, 4, 10, 10, 1⟩ 0 0).toF) 1 =
      mapClippedRect ⟨1, 0, 0, 1, 1, 2⟩
        (scaleRectF ((TilingData.tileBounds ⟨4, 4, 10, 10, 1⟩ 0 0).toF) 1) :=
  ⟨by norm_num, by norm_num, ⟨rfl, rfl, rfl, rfl⟩, ⟨rfl, rfl, rfl, rfl⟩,
    (translation_fast_path ⟨4, 4, 10, 10, 1⟩ 0 0 ⟨1, 0, 0, 1, 3, 4⟩
      ⟨1, 0, 0, 1, 1, 2⟩ 2 1 (by norm_num) (by norm_num)
      ⟨rfl, rfl, rfl, rfl⟩ ⟨rfl, rfl, rfl, rfl⟩).1⟩

theorem liveRemoveStep_fields (s : TilingState) (c : Int × Int) :
    (liveRemoveStep s c).curTree = s.curTree ∧ (liveRemoveStep s c).live = s.live ∧
    (liveRemoveStep s c).td = s.td ∧
    (liveRemoveStep s c).contentsScale = s.contentsScale := by
  unfold liveRemoveStep removeBundleIfEmpty removeTile removeTileCore
  dsimp only
  split <;> split <;> exact ⟨rfl, rfl, rfl, rfl⟩

theorem removePass_fields (L : List (Int × Int)) (s : TilingState) :
    (L.foldl liveRemoveStep s).curTree = s.curTree ∧
    (L.foldl liveRemoveStep s).live = s.live ∧
    (L.foldl liveRemoveStep s).td = s.td ∧
    (L.foldl liveRemoveStep s).contentsScale = s.contentsScale := by
  induction L generalizing s with
  | nil => exact ⟨rfl, rfl, rfl, rfl⟩
  | cons c L ih =>
    rw [List.foldl_cons]
    obtain ⟨i1, i2, i3, i4⟩ := ih (liveRemoveStep s c)
    obtain ⟨j1, j2, j3, j4⟩ := liveRemoveStep_fields s c
    exact ⟨i1.trans j1, i2.trans j2, i3.trans j3, i4.trans j4⟩

theorem removeBundleIfEmpty_tiles (s : TilingState) (i j : Int) :
    (removeBundleIfEmpty s i j).tiles = s.tiles := by
  unfold removeBundleIfEmpty
  dsimp only
  split <;> rfl

theorem bundleInv_liveRemoveStep {s : TilingState} (h : bundleInv s) (c : Int × Int) :
    bundleInv (liveRemoveStep s c) :=
  bundleInv_removeBundleIfEmpty (bundleInv_removeTile h s.curTree c.1 c.2) c.1 c.2

/-- One removal-loop step sets the current tree's slot at the cell to
the null tile and touches no other slot (under the occupancy invariant a
slot whose bundle is missing is already unoccupied). -/
theorem liveRemoveStep_tiles {s : TilingState} (hinv : bundleInv s) (c : Int × Int)
    (t : WhichTree) (a b : Int) :
    (liveRemoveStep s c).tiles t a b =
      if t = s.curTree ∧ a = c.1 ∧ b = c.2 then none else s.tiles t a b := by
  unfold liveRemoveStep
  rw [removeBundleIfEmpty_tiles]
  unfold removeTile removeTileCore
  dsimp only
  by_cases hk : tileBundleIndex c.1 c.2 ∈ s.keys
  · rw [if_pos hk]
    dsimp only
    unfold updateTiles
    rfl
  · rw [if_neg hk]
    dsimp only
    by_cases hcase : t = s.curTree ∧ a = c.1 ∧ b = c.2
    · rw [if_pos hcase]
      by_contra hne2
      have h3 := (hinv t a b hne2).2.2
      rw [hcase.2.1, hcase.2.2] at h3
      exact hk h3
    · rw [if_neg hcase]

/-- After the removal loop over a cell list, the current tree's slots at
exactly the listed cells are null and every other slot holds the
identical value it held before. -/
theorem removePass_tiles {s : TilingState} (hinv : bundleInv s) (L : List (Int × Int))
    (t : WhichTree) (a b : Int) :
    (L.foldl liveRemoveStep s).tiles t a b =
      if t = s.curTree ∧ (a, b) ∈ L then none else s.tiles t a b := by
  induction L generalizing s with
  | nil => simp
  | cons c L ih =>
    rw [List.foldl_cons]
    have hinv2 : bundleInv (liveRemoveStep s c) := bundleInv_liveRemoveStep hinv c
    rw [ih hinv2, (liveRemoveStep_fields s c).1, liveRemoveStep_tiles hinv c t a b]
    simp only [List.mem_cons, Prod.ext_iff]
    split_ifs <;> tauto

theorem tdiv_two_mul {x : Int} (hx : 0 ≤ x) :
    Int.tdiv (2 * x) 2 = x ∧ Int.tdiv (2 * x + 1) 2 = x := by
  constructor <;> rw [Int.tdiv_eq_ediv (by omega) (by norm_num)] <;> omega

/-- `IsEmpty` of a bundle with a non-negative key, cell-wise: the four
window cells are exactly the non-negative cells mapping to the key. -/
theorem bundleEmpty_iff {f : WhichTree → Int → Int → Option Nat} {k : Int × Int}
    (hk1 : 0 ≤ k.1) (hk2 : 0 ≤ k.2) :
    bundleEmpty f k = true ↔
      ∀ t a b, 0 ≤ a → 0 ≤ b → tileBundleIndex a b = k → f t a b = none := by
  constructor
  · intro h t a b ha hb hk
    exact bundleEmpty_spec f k h t a b ha hb hk
  · intro h
    have w1 := tdiv_two_mul hk1
    have w2 := tdiv_two_mul hk2
    have e00 : tileBundleIndex (2 * k.1) (2 * k.2) = k := by
      unfold tileBundleIndex
      rw [w1.1, w2.1]
    have e01 : tileBundleIndex (2 * k.1) (2 * k.2 + 1) = k := by
      unfold tileBundleIndex
      rw [w1.1, w2.2]
    have e10 : tileBundleIndex (2 * k.1 + 1) (2 * k.2) = k := by
      unfold tileBundleIndex
      rw [w1.2, w2.1]
    have e11 : tileBundleIndex (2 * k.1 + 1) (2 * k.2 + 1) = k := by
      unfold tileBundleIndex
      rw [w1.2, w2.2]
    simp only [bundleEmpty, List.all_cons, List.all_nil, Bool.and_true,
      Bool.and_eq_true, Option.isNone_iff_eq_none, add_zero]
    exact ⟨⟨h _ _ _ (by omega) (by omega) e00, h _ _ _ (by omega) (by omega) e00⟩,
      ⟨h _ _ _ (by omega) (by omega) e01, h _ _ _ (by omega) (by omega) e01⟩,
      ⟨h _ _ _ (by omega) (by omega) e10, h _ _ _ (by omega) (by omega) e10⟩,
      ⟨h _ _ _ (by omega) (by omega) e11, h _ _ _ (by omega) (by omega) e11⟩⟩

theorem removeTile_keys (s : TilingState) (t : WhichTree) (i j : Int) :
    (removeTile s t i j).keys = s.keys := by
  unfold removeTile removeTileCore
  dsimp only
  split <;> rfl

theorem liveRemoveStep_keys (s : TilingState) (c : Int × Int) :
    (liveRemoveStep s c).keys =
      if tileBundleIndex c.1 c.2 ∈ s.keys ∧
          bundleEmpty (removeTile s s.curTree c.1 c.2).tiles
            (tileBundleIndex c.1 c.2) = true
      then s.keys.erase (tileBundleIndex c.1 c.2) else s.keys := by
  unfold liveRemoveStep removeBundleIfEmpty
  dsimp only
  rw [removeTile_keys]
  by_cases hcond : tileBundleIndex c.1 c.2 ∈ s.keys ∧
      bundleEmpty (removeTile s s.curTree c.1 c.2).tiles
        (tileBundleIndex c.1 c.2) = true
  · rw [if_pos hcond, if_pos hcond]
  · rw [if_neg hcond, if_neg hcond]
    exact removeTile_keys s s.curTree c.1 c.2

theorem liveRemoveStep_tiles_eq (s : TilingState) (c : Int × Int) :
    (liveRemoveStep s c).tiles = (removeTile s s.curTree c.1 c.2).tiles := by
  unfold liveRemoveStep
  rw [removeBundleIfEmpty_tiles]

/-- The bundle keys surviving the removal loop: a key is kept iff it was
present before and it is not the case that the loop touched one of its
cells and the bundle ends the loop empty (the loop erases a touched
bundle exactly when its last touch finds it empty, and emptiness is
preserved by the rest of the loop). -/
theorem removePass_keys {s : TilingState} (hinv : bundleInv s) (L : List (Int × Int))
    (hL : ∀ c ∈ L, 0 ≤ c.1 ∧ 0 ≤ c.2) (k : Int × Int) :
    k ∈ (L.foldl liveRemoveStep s).keys ↔
      k ∈ s.keys ∧ ¬ (k ∈ L.map (fun c => tileBundleIndex c.1 c.2) ∧
        bundleEmpty ((L.foldl liveRemoveStep s).tiles) k = true) := by
  induction L generalizing s with
  | nil => simp
  | cons c L ih =>
    obtain ⟨hc1, hc2⟩ := hL c (List.mem_cons_self c L)
    have hk1 : 0 ≤ (tileBundleIndex c.1 c.2).1 := Int.tdiv_nonneg hc1 (by norm_num)
    have hk2 : 0 ≤ (tileBundleIndex c.1 c.2).2 := Int.tdiv_nonneg hc2 (by norm_num)
    have hLtail : ∀ x ∈ L, 0 ≤ x.1 ∧ 0 ≤ x.2 :=
      fun x hx => hL x (List.mem_cons_of_mem c hx)
    have hinv2 : bundleInv (liveRemoveStep s c) := bundleInv_liveRemoveStep hinv c
    rw [List.foldl_cons, List.map_cons, ih hinv2 hLtail, liveRemoveStep_keys]
    simp only [List.mem_cons]
    by_cases hcond : tileBundleIndex c.1 c.2 ∈ s.keys ∧
        bundleEmpty (removeTile s s.curTree c.1 c.2).tiles
          (tileBundleIndex c.1 c.2) = true
    · rw [if_pos hcond]
      by_cases hkk : k = tileBundleIndex c.1 c.2
      · have hef : bundleEmpty ((L.foldl liveRemoveStep
            (liveRemoveStep s c)).tiles) k = true := by
          rw [hkk, bundleEmpty_iff hk1 hk2]
          intro t a b ha hb hkm
          rw [removePass_tiles hinv2 L t a b]
          split
          · rfl
          · rw [liveRemoveStep_tiles_eq]
            exact bundleEmpty_spec _ _ hcond.2 t a b ha hb hkm
        constructor
        · intro h
          exact absurd hkk (Finset.mem_erase.mp h.1).1
        · intro h
          exact absurd ⟨Or.inl hkk, hef⟩ h.2
      · rw [Finset.mem_erase]
        have hor : (k = tileBundleIndex c.1 c.2 ∨
            k ∈ L.map fun c => tileBundleIndex c.1 c.2) ↔
            k ∈ L.map fun c => tileBundleIndex c.1 c.2 := by tauto
        rw [hor]
        tauto
    · rw [if_neg hcond]
      by_cases hkk : k = tileBundleIndex c.1 c.2
      · by_cases hmem : k ∈ s.keys
        · have hne1 : ¬ bundleEmpty (removeTile s s.curTree c.1 c.2).tiles k = true := by
            rw [hkk]
            exact fun he => hcond ⟨hkk ▸ hmem, he⟩
          by_cases hmapL : k ∈ L.map fun c => tileBundleIndex c.1 c.2
          · tauto
          · have hefF : ¬ bundleEmpty ((L.foldl liveRemoveStep
                (liveRemoveStep s c)).tiles) k = true := by
              intro hef
              apply hne1
              rw [hkk] at hef ⊢
              rw [bundleEmpty_iff hk1 hk2]
              intro t a b ha hb hkm
              by_cases hbL : (a, b) ∈ L
              · exfalso
                apply hmapL
                rw [hkk, List.mem_map]
                exact ⟨(a, b), hbL, hkm⟩
              · have hval := bundleEmpty_spec _ _ hef t a b ha hb hkm
                rw [removePass_tiles hinv2 L t a b,
                  if_neg (fun hc3 => hbL hc3.2), liveRemoveStep_tiles_eq] at hval
                exact hval
            tauto
        · tauto
      · have hor : (k = tileBundleIndex c.1 c.2 ∨
            k ∈ L.map fun c => tileBundleIndex c.1 c.2) ↔
            k ∈ L.map fun c => tileBundleIndex c.1 c.2 := by tauto
        rw [hor]

theorem tdiv_le_tdiv {a b d : Int} (hd : 0 < d) (h : a ≤ b) :
    a.tdiv d ≤ b.tdiv d := by
  rcases le_or_lt 0 a with ha | ha
  · rw [Int.tdiv_eq_ediv ha (le_of_lt hd), Int.tdiv_eq_ediv (le_trans ha h) (le_of_lt hd)]
    exact Int.ediv_le_ediv hd h
  · rcases le_or_lt 0 b with hb | hb
    · have h1 : a.tdiv d ≤ 0 :=
        tdiv_nonpos_of_nonpos_of_nonneg (le_of_lt ha) (le_of_lt hd)
      have h2 : 0 ≤ b.tdiv d := Int.tdiv_nonneg hb (le_of_lt hd)
      omega
    · have e1 : Int.tdiv (-a) d = -(Int.tdiv a d) := by rw [Int.neg_tdiv]
      have e2 : Int.tdiv (-b) d = -(Int.tdiv b d) := by rw [Int.neg_tdiv]
      rw [Int.tdiv_eq_ediv (by omega) (le_of_lt hd)] at e1
      rw [Int.tdiv_eq_ediv (by omega) (le_of_lt hd)] at e2
      have h3 : (-b) / d ≤ (-a) / d := Int.ediv_le_ediv hd (by omega)
      omega

theorem numTilesDim_two_pos {m W b : Int} (h : ¬ numTilesDim m W b ≤ 1) :
    0 < m - 2 * b := by
  unfold numTilesDim at h
  by_cases h1 : m - 2 * b ≤ 0
  · rw [if_pos h1] at h
    split at h <;> omega
  · omega

theorem tileIndexDim_mono {m W b x y : Int} (hxy : x ≤ y) :
    tileIndexDim m W b x ≤ tileIndexDim m W b y := by
  unfold tileIndexDim
  by_cases h : numTilesDim m W b ≤ 1
  · rw [if_pos h, if_pos h]
  · rw [if_neg h, if_neg h]
    have hpos := numTilesDim_two_pos h
    exact min_le_min (max_le_max (tdiv_le_tdiv hpos (by omega)) le_rfl) le_rfl

theorem toSet_eq_empty_iff (r : GfxRect) : r.toSet = ∅ ↔ r.isEmpty := by
  constructor
  · intro h
    by_contra hne
    simp only [GfxRect.isEmpty, not_or, not_le] at hne
    have hmem : (r.x, r.y) ∈ r.toSet := by
      rw [mem_toSet]
      dsimp only
      omega
    rw [h] at hmem
    exact absurd hmem (Set.not_mem_empty _)
  · intro h
    rw [Set.eq_empty_iff_forall_not_mem]
    intro p hp
    rw [mem_toSet] at hp
    rcases h with h | h <;> omega

theorem intersect_fields_of_nonempty {a b : GfxRect}
    (h : ¬ (intersectRects a b).isEmpty) :
    (intersectRects a b).x = max a.x b.x ∧ (intersectRects a b).y = max a.y b.y ∧
    (intersectRects a b).right = min a.right b.right ∧
    (intersectRects a b).bottom = min a.bottom b.bottom := by
  unfold intersectRects at h ⊢
  dsimp only at h ⊢
  by_cases h1 : a.isEmpty ∨ b.isEmpty
  · rw [if_pos h1] at h
    exact absurd (Or.inl le_rfl) h
  · rw [if_neg h1] at h ⊢
    by_cases h2 : min a.right b.right ≤ max a.x b.x ∨
        min a.bottom b.bottom ≤ max a.y b.y
    · rw [if_pos h2] at h
      exact absurd (Or.inl le_rfl) h
    · rw [if_neg h2]
      refine ⟨rfl, rfl, ?_, ?_⟩ <;>
        (simp only [GfxRect.right, GfxRect.bottom]; omega)

/-- Index ranges are monotone in the queried rectangle: a rectangle
contained in another has its cells inside the other's range. -/
theorem inIndexRange_mono (td : TilingData) {A B : GfxRect}
    (h1 : A.x ≤ B.x) (h2 : B.right ≤ A.right) (h3 : A.y ≤ B.y)
    (h4 : B.bottom ≤ A.bottom) {c : Int × Int}
    (hc : inIndexRange (indexRange td B) c = true) :
    inIndexRange (indexRange td A) c = true := by
  unfold indexRange at hc ⊢
  dsimp only at hc ⊢
  by_cases hB : (intersectRects B td.totalRect).isEmpty
  · rw [if_pos hB] at hc
    exact absurd hc (by simp [inIndexRange])
  · rw [if_neg hB] at hc
    have hBsub : B.toSet ⊆ A.toSet := by
      intro p hp
      rw [mem_toSet] at hp ⊢
      simp only [GfxRect.right] at h2
      simp only [GfxRect.bottom] at h4
      omega
    have hA : ¬ (intersectRects A td.totalRect).isEmpty := by
      rw [← toSet_eq_empty_iff] at hB ⊢
      intro hAe
      apply hB
      rw [toSet_intersectRects] at hAe ⊢
      rw [Set.eq_empty_iff_forall_not_mem] at hAe ⊢
      intro p hp
      exact hAe p ⟨hBsub hp.1, hp.2⟩
    rw [if_neg hA]
    obtain ⟨ax, ay, ar, ab2⟩ := intersect_fields_of_nonempty hA
    obtain ⟨bx, by2, br, bb2⟩ := intersect_fields_of_nonempty hB
    simp only [inIndexRange, decide_eq_true_eq] at hc ⊢
    have m1 : td.tileXIndexFromSrcCoord ((intersectRects A td.totalRect).x) ≤
        td.tileXIndexFromSrcCoord ((intersectRects B td.totalRect).x) := by
      apply tileIndexDim_mono
      rw [ax, bx]
      exact max_le_max h1 le_rfl
    have m2 : td.tileXIndexFromSrcCoord ((intersectRects B td.totalRect).right - 1) ≤
        td.tileXIndexFromSrcCoord ((intersectRects A td.totalRect).right - 1) := by
      apply tileIndexDim_mono
      rw [ar, br]
      have hm := min_le_min h2 (le_refl td.totalRect.right)
      omega
    have m3 : td.tileYIndexFromSrcCoord ((intersectRects A td.totalRect).y) ≤
        td.tileYIndexFromSrcCoord ((intersectRects B td.totalRect).y) := by
      apply tileIndexDim_mono
      rw [ay, by2]
      exact max_le_max h3 le_rfl
    have m4 : td.tileYIndexFromSrcCoord ((intersectRects B td.totalRect).bottom - 1) ≤
        td.tileYIndexFromSrcCoord ((intersectRects A td.totalRect).bottom - 1) := by
      apply tileIndexDim_mono
      rw [ab2, bb2]
      have hm := min_le_min h4 (le_refl td.totalRect.bottom)
      omega
    omega

theorem diffCells_eq_nil {td : TilingData} {A B : GfxRect}
    (h1 : A.x ≤ B.x) (h2 : B.right ≤ A.right) (h3 : A.y ≤ B.y)
    (h4 : B.bottom ≤ A.bottom) : diffCells td B A = [] := by
  unfold diffCells
  rw [List.filter_eq_nil_iff]
  intro c hc
  have hm := inIndexRange_mono td h1 h2 h3 h4 (mem_cellsOf.mp hc)
  simp [hm]

/-- **C4**: shrinking the live tiles rect from `A = live_tiles_rect_` to
a non-empty `B` strictly inside it removes exactly the current tree's
tiles at the cells of `A`'s index range outside `B`'s range — each such
slot ends null, every other slot of either tree keeps its identical
tile, and no tile is created; a bundle's key is erased exactly when the
pass touched it and it ends empty. -/
theorem setLiveTilesRect_shrink (st : TilingState) (B : GfxRect)
    (co : Int → Int → TileOracle) (hinv : bundleInv st)
    (hne : B ≠ st.live) (hBne : ¬ B.isEmpty)
    (h1 : st.live.x ≤ B.x) (h2 : B.right ≤ st.live.right)
    (h3 : st.live.y ≤ B.y) (h4 : B.bottom ≤ st.live.bottom) :
    (setLiveTilesRect st B co).live = B ∧
    (setLiveTilesRect st B co).curTree = st.curTree ∧
    (∀ t a b, ¬ (t = st.curTree ∧ (a, b) ∈ diffCells st.td st.live B) →
      (setLiveTilesRect st B co).tiles t a b = st.tiles t a b) ∧
    (∀ c ∈ diffCells st.td st.live B,
      (setLiveTilesRect st B co).tiles st.curTree c.1 c.2 = none) ∧
    (∀ c : Int × Int, c ∈ diffCells st.td st.live B ↔
      inIndexRange (indexRange st.td st.live) c = true ∧
      inIndexRange (indexRange st.td B) c = false) ∧
    (∀ k, k ∈ (setLiveTilesRect st B co).keys ↔
      k ∈ st.keys ∧ ¬ (k ∈ (diffCells st.td st.live B).map
          (fun c => tileBundleIndex c.1 c.2) ∧
        bundleEmpty ((setLiveTilesRect st B co).tiles) k = true)) := by
  have hres : setLiveTilesRect st B co =
      { (diffCells st.td st.live B).foldl liveRemoveStep st with live := B } := by
    unfold setLiveTilesRect
    rw [if_neg (fun h => hne h.symm)]
    dsimp only
    rw [if_neg hBne, diffCells_eq_nil h1 h2 h3 h4, List.foldl_nil]
  obtain ⟨hct, hlv, htd, hcs⟩ := removePass_fields (diffCells st.td st.live B) st
  refine ⟨?_, ?_, ?_, ?_, ?_, ?_⟩
  · rw [hres]
  · rw [hres]
    exact hct
  · intro t a b hn
    rw [hres]
    dsimp only
    rw [removePass_tiles hinv (diffCells st.td st.live B) t a b, if_neg hn]
  · intro c hc
    rw [hres]
    dsimp only
    rw [removePass_tiles hinv (diffCells st.td st.live B) st.curTree c.1 c.2,
      if_pos ⟨rfl, by rw [Prod.mk.eta]; exact hc⟩]
  · intro c
    unfold diffCells
    rw [List.mem_filter, mem_cellsOf, Bool.not_eq_true']
  · intro k
    rw [hres]
    dsimp only
    exact removePass_keys hinv (diffCells st.td st.live B)
      (fun c hc => diffCells_nonneg hc) k

theorem setLiveTilesRect_shrink_witness :
    bundleInv c4DemoState ∧
    (⟨0, 0, 4, 4⟩ : GfxRect) ≠ c4DemoState.live ∧
    ¬ (⟨0, 0, 4, 4⟩ : GfxRect).isEmpty ∧
    (c4DemoState.live.x ≤ (⟨0, 0, 4, 4⟩ : GfxRect).x ∧
      (⟨0, 0, 4, 4⟩ : GfxRect).right ≤ c4DemoState.live.right ∧
      c4DemoState.live.y ≤ (⟨0, 0, 4, 4⟩ : GfxRect).y ∧
      (⟨0, 0, 4, 4⟩ : GfxRect).bottom ≤ c4DemoState.live.bottom) ∧
    (setLiveTilesRect c4DemoState ⟨0, 0, 4, 4⟩
      (fun _ _ => ⟨fun _ => false, fun _ => none⟩)).live = ⟨0, 0, 4, 4⟩ := by
  have hinv : bundleInv c4DemoState := by
    intro t a b hne
    by_cases hc : t = WhichTree.pending ∧ a = 0 ∧ b = 0
    · obtain ⟨_, rfl, rfl⟩ := hc
      exact ⟨le_rfl, le_rfl, by decide⟩
    · exfalso
      apply hne
      show (if t = WhichTree.pending ∧ a = 0 ∧ b = 0 then some 5 else none) = none
      rw [if_neg hc]
  refine ⟨hinv, by decide, by decide, ⟨by decide, by decide, by decide, by decide⟩, ?_⟩
  exact (setLiveTilesRect_shrink c4DemoState ⟨0, 0, 4, 4⟩
    (fun _ _ => ⟨fun _ => false, fun _ => none⟩) hinv (by decide) (by decide)
    (by decide) (by decide) (by decide) (by decide)).1

end CC
